import Mathlib

/-!
Dense matrix type of `Matrix.hpp` / `Matrix.tpp`.

A shallow embedding of the C++ class template `Matrix<T>` and of its operations,
followed by theorems about them.

Modelling choices.

* `std::vector<std::vector<T>> data` is a list of lists; `size_t` values are natural
  numbers.  With block sizes of at least one every index computed by an operation is
  below a dimension of an operand (`block_index_lt`, `rem_index_lt`), so unsigned
  wrap-around plays no role.
* The two exceptions thrown by the source are the failures `out_of_range` and
  `invalid_argument`.  Two further failures stand for undefined behaviour of the
  source: an unsigned division or remainder by zero, and an unchecked `data[r][c]`
  outside the storage.
* A run of an operation yields, next to its outcome, the list of the cells of the
  local `result` matrix that were assigned through `result(r, c) = ...`, in order.
* `for (size_t i = 0; i < n; ++i)` is an iteration over `List.range n`.
* The element type `T` is a parameter of every operation.  Where a property depends
  on the arithmetic of the element type, `Fp` stands for `double` and `float` (with
  the signed zero, the infinities and NaN) and `I32` for the 32-bit `int` (whose
  arithmetic wraps around); `Int` stands for exact integers.
-/

namespace KBlas

/-- Ways in which a run can stop without a value. -/
inductive Failure where
  /-- The exception of `throw std::out_of_range("Matrix indices out of range")`. -/
  | out_of_range
  /-- The exception of `throw std::invalid_argument(...)`, thrown by the dimension checks
  of `+`, `-`, `*`. -/
  | invalid_argument
  /-- An unsigned `/` or `%` with a zero divisor (undefined behaviour). -/
  | division_by_zero
  /-- An unchecked `data[r][c]` outside the storage (undefined behaviour). -/
  | unchecked_index
  deriving DecidableEq, Repr

/-- Whether the failure is an exception thrown by the source, that is, an error value
the caller can catch and tell apart. -/
def Failure.thrown : Failure → Bool
  | .out_of_range => true
  | .invalid_argument => true
  | .division_by_zero => false
  | .unchecked_index => false

/-- Outcome of running a piece of the program: the cells of `result` assigned so far,
oldest first, and the value or the failure the run ended with. -/
structure Run (α : Type) where
  stores : List (Nat × Nat)
  out : Except Failure α

/-- A run that performs no assignment and returns `a`. -/
def Run.ret {α : Type} (a : α) : Run α := ⟨[], .ok a⟩

/-- A run that stops with failure `e` before any assignment. -/
def Run.fail {α : Type} (e : Failure) : Run α := ⟨[], .error e⟩

/-- Sequencing: the second part runs only when the first returned a value; the
assignments of both parts are kept in order. -/
def Run.andThen {α β : Type} (x : Run α) (f : α → Run β) : Run β :=
  match x.out with
  | .error e => ⟨x.stores, .error e⟩
  | .ok a => ⟨x.stores ++ (f a).stores, (f a).out⟩

/-- An expression that assigns nothing: its value or its failure. -/
def Run.eval {α : Type} (x : Except Failure α) : Run α := ⟨[], x⟩

/-- The loop `for (idx : l) body`, threading the loop-carried state. -/
def forIdx {ι σ : Type} : List ι → (ι → σ → Run σ) → σ → Run σ
  | [], _, s => Run.ret s
  | i :: l, body, s => (body i s).andThen (forIdx l body)

/-- The loop `for (size_t i = 0; i < n; ++i) body`. -/
def forLoop {σ : Type} (n : Nat) (body : Nat → σ → Run σ) (s : σ) : Run σ :=
  forIdx (List.range n) body s

/-- Unsigned `a % b`. -/
def umod (a b : Nat) : Except Failure Nat :=
  if b = 0 then .error .division_by_zero else .ok (a % b)

/-- Unsigned `a / b`. -/
def udiv (a b : Nat) : Except Failure Nat :=
  if b = 0 then .error .division_by_zero else .ok (a / b)

/-- The class `Matrix<T>`: its three data members. -/
structure Matrix (T : Type) where
  data : List (List T)
  rows : Nat
  cols : Nat
  deriving DecidableEq, Repr

namespace Matrix

variable {T : Type}

/-- The storage has `rows` lines of `cols` elements each. -/
def WF (m : Matrix T) : Prop :=
  m.data.length = m.rows ∧ ∀ vec ∈ m.data, vec.length = m.cols

instance (m : Matrix T) : Decidable m.WF := by
  unfold WF; infer_instance

/-- The element stored at `(r, c)`, if the storage has such a cell. -/
def cell (m : Matrix T) (r c : Nat) : Option T :=
  match m.data[r]? with
  | none => none
  | some vec => vec[c]?

/-- Constructor `Matrix(size_t r, size_t c, const T& initial)`:
`data.resize(rows, std::vector<T>(cols, initial))` on the empty vector. -/
def fill (r c : Nat) (initial : T) : Matrix T :=
  { data := List.replicate r (List.replicate c initial), rows := r, cols := c }

/-- Constructor `Matrix(size_t r, size_t c)`: as `fill` with the value-initialised `T()`. -/
def zero [Zero T] (r c : Nat) : Matrix T :=
  { data := List.replicate r (List.replicate c (0 : T)), rows := r, cols := c }

/-- Method `getRows()`. -/
def getRows (m : Matrix T) : Nat := m.rows

/-- Method `getCols()`. -/
def getCols (m : Matrix T) : Nat := m.cols

/-- The unchecked read `data[r][c]`. -/
def raw (m : Matrix T) (r c : Nat) : Except Failure T :=
  match m.cell r c with
  | none => .error .unchecked_index
  | some v => .ok v

/-- The read overload `const T& operator()(size_t row, size_t col) const`. -/
def getAt (m : Matrix T) (row col : Nat) : Except Failure T :=
  if row ≥ m.rows ∨ col ≥ m.cols then .error .out_of_range
  else m.raw row col

/-- The write overload `T& operator()(size_t row, size_t col)`: the bounds check, then the reference
`data[row][col]`, represented by the position it designates. -/
def refAt (m : Matrix T) (row col : Nat) : Except Failure (Nat × Nat) :=
  if row ≥ m.rows ∨ col ≥ m.cols then .error .out_of_range
  else match m.cell row col with
    | none => .error .unchecked_index
    | some _ => .ok (row, col)

/-- Assignment through a reference obtained from `refAt`: `data[p.1][p.2] = v`. -/
def poke (m : Matrix T) (p : Nat × Nat) (v : T) : Matrix T :=
  { m with data := m.data.set p.1 ((m.data.getD p.1 []).set p.2 v) }

/-- Reading through a reference obtained from `refAt`. -/
def peek (m : Matrix T) (p : Nat × Nat) : Except Failure T := m.raw p.1 p.2

/-- The statement `m(row, col) = v`: the write overload of `operator()` followed by
the assignment, which is recorded. -/
def store (m : Matrix T) (row col : Nat) (v : T) : Run (Matrix T) :=
  match m.refAt row col with
  | .error e => Run.fail e
  | .ok p => ⟨[p], .ok (m.poke p v)⟩

/-- Method `Matrix<T>::operator+`. -/
def add [Zero T] [Add T] (self other : Matrix T) : Run (Matrix T) :=
  if self.rows ≠ other.rows ∨ self.cols ≠ other.cols then
    Run.fail .invalid_argument
  else
    forLoop self.rows (fun i result =>
      forLoop self.cols (fun j result =>
        (Run.eval (self.raw i j)).andThen fun a =>
        (Run.eval (other.getAt i j)).andThen fun b =>
        result.store i j (a + b)) result) (zero self.rows self.cols)

/-- Method `Matrix<T>::operator-`. -/
def sub [Zero T] [Sub T] (self other : Matrix T) : Run (Matrix T) :=
  if self.rows ≠ other.rows ∨ self.cols ≠ other.cols then
    Run.fail .invalid_argument
  else
    forLoop self.rows (fun i result =>
      forLoop self.cols (fun j result =>
        (Run.eval (self.raw i j)).andThen fun a =>
        (Run.eval (other.getAt i j)).andThen fun b =>
        result.store i j (a - b)) result) (zero self.rows self.cols)

/-- Method `Matrix<T>::operator*(const Matrix<T>&)`. -/
def mul [Zero T] [Add T] [Mul T] (self other : Matrix T) : Run (Matrix T) :=
  if self.cols ≠ other.rows then
    Run.fail .invalid_argument
  else
    forLoop self.rows (fun i result =>
      forLoop other.cols (fun j result =>
        (forLoop self.cols (fun k sum =>
          (Run.eval (self.raw i k)).andThen fun a =>
          (Run.eval (other.getAt k j)).andThen fun b =>
          Run.ret (sum + a * b)) (0 : T)).andThen fun sum =>
        result.store i j sum) result) (zero self.rows other.cols)

/-- Method `Matrix<T>::operator*(const T&)`. -/
def smul [Zero T] [Mul T] (self : Matrix T) (scalar : T) : Run (Matrix T) :=
  forLoop self.rows (fun i result =>
    forLoop self.cols (fun j result =>
      (Run.eval (self.raw i j)).andThen fun a =>
      result.store i j (a * scalar)) result) (zero self.rows self.cols)

/-- Method `Matrix<T>::transpose`. -/
def transpose [Zero T] (self : Matrix T) : Run (Matrix T) :=
  forLoop self.rows (fun i result =>
    forLoop self.cols (fun j result =>
      (Run.eval (self.raw i j)).andThen fun a =>
      result.store j i a) result) (zero self.cols self.rows)

/-- The statement `result(c, r) = data[r][c]` shared by the loop nests of
`optTranspose`. -/
def copyCell (self : Matrix T) (r c : Nat) (result : Matrix T) : Run (Matrix T) :=
  (Run.eval (self.raw r c)).andThen fun a => result.store c r a

/-- Method `Matrix<T>::optTranspose`. -/
def optTranspose [Zero T] (self : Matrix T) (bsize_row bsize_col : Nat) : Run (Matrix T) :=
  (Run.eval (umod self.cols bsize_col)).andThen fun col_remainder =>
  (Run.eval (umod self.rows bsize_row)).andThen fun row_remainder =>
  (Run.eval (udiv self.cols bsize_col)).andThen fun col_blocks =>
  (Run.eval (udiv self.rows bsize_row)).andThen fun row_blocks =>
  (forLoop row_blocks (fun rBlockIdx result =>
    forLoop col_blocks (fun cBlockIdx result =>
      forLoop bsize_row (fun i result =>
        forLoop bsize_col (fun j result =>
          self.copyCell (rBlockIdx * bsize_row + i) (cBlockIdx * bsize_col + j) result)
          result) result) result) (zero self.cols self.rows)).andThen fun result =>
  -- Handle remainder rows
  (if row_remainder > 0 then
    forLoop col_blocks (fun cBlockIdx result =>
      forLoop row_remainder (fun i result =>
        forLoop bsize_col (fun j result =>
          self.copyCell (row_blocks * bsize_row + i) (cBlockIdx * bsize_col + j) result)
          result) result) result
   else Run.ret result).andThen fun result =>
  -- Handle remainder columns
  (if col_remainder > 0 then
    forLoop row_blocks (fun rBlockIdx result =>
      forLoop bsize_row (fun i result =>
        forLoop col_remainder (fun j result =>
          self.copyCell (rBlockIdx * bsize_row + i) (col_blocks * bsize_col + j) result)
          result) result) result
   else Run.ret result).andThen fun result =>
  -- Handle bottom-right remainder block
  (if row_remainder > 0 ∧ col_remainder > 0 then
    forLoop row_remainder (fun i result =>
      forLoop col_remainder (fun j result =>
        self.copyCell (row_blocks * bsize_row + i) (col_blocks * bsize_col + j) result)
        result) result
   else Run.ret result)

/-- The statement `m(row, col) = v` as a step on the matrix `m` itself: the matrix
afterwards, and the exception if one was thrown.  The write overload of `operator()`
throws before it hands out a reference, so a failing statement assigns nothing. -/
def assign (m : Matrix T) (row col : Nat) (v : T) : Matrix T × Option Failure :=
  match m.refAt row col with
  | .error e => (m, some e)
  | .ok p => (m.poke p v, none)

/-- Method `Matrix<T>::frobeniusNorm`, with `std::sqrt` followed by the conversion back to
`T` taken as the parameter `sqrtT`. -/
def frobeniusNorm [Zero T] [Add T] [Mul T] (sqrtT : T → T) (self : Matrix T) :
    Run (Matrix T) :=
  (forLoop self.rows (fun i sum =>
    forLoop self.cols (fun j sum =>
      (Run.eval (self.raw i j)).andThen fun a =>
      (Run.eval (self.raw i j)).andThen fun b =>
      Run.ret (sum + a * b)) sum) (0 : T)).andThen fun sum =>
  (zero 1 1).store 0 0 (sqrtT sum)

/-! ### Auxiliary notions used in the statements and proofs -/

/-- The element at `(r, c)`, with `T()` standing in where the storage has no such
cell. -/
def entry [Zero T] (m : Matrix T) (r c : Nat) : T := (m.cell r c).getD 0

/-- A well-formed matrix with `r` rows and `c` columns. -/
def Shaped (r c : Nat) (m : Matrix T) : Prop := m.WF ∧ m.rows = r ∧ m.cols = c

/-- The matrix after the assignments `m(p) = w p`, for `p` running through `ps`. -/
def pokeAll (w : Nat × Nat → T) (ps : List (Nat × Nat)) (m : Matrix T) : Matrix T :=
  ps.foldl (fun s p => s.poke p (w p)) m

/-- The cells assigned by the main grid of `optTranspose`, in order of assignment;
the loop indices are `(((rBlockIdx, cBlockIdx), i), j)`. -/
def gridStores (row_blocks col_blocks bsize_row bsize_col : Nat) : List (Nat × Nat) :=
  (((List.range row_blocks ×ˢ List.range col_blocks) ×ˢ List.range bsize_row)
      ×ˢ List.range bsize_col).map
    fun x => (x.1.1.2 * bsize_col + x.2, x.1.1.1 * bsize_row + x.1.2)

/-- The cells assigned by the remainder-rows nest; loop indices `((cBlockIdx, i), j)`. -/
def bottomStores (row_blocks col_blocks row_remainder bsize_row bsize_col : Nat) :
    List (Nat × Nat) :=
  ((List.range col_blocks ×ˢ List.range row_remainder) ×ˢ List.range bsize_col).map
    fun x => (x.1.1 * bsize_col + x.2, row_blocks * bsize_row + x.1.2)

/-- The cells assigned by the remainder-columns nest; loop indices
`((rBlockIdx, i), j)`. -/
def rightStores (row_blocks col_blocks col_remainder bsize_row bsize_col : Nat) :
    List (Nat × Nat) :=
  ((List.range row_blocks ×ˢ List.range bsize_row) ×ˢ List.range col_remainder).map
    fun x => (col_blocks * bsize_col + x.2, x.1.1 * bsize_row + x.1.2)

/-- The cells assigned by the bottom-right nest; loop indices `(i, j)`. -/
def cornerStores (row_blocks col_blocks row_remainder col_remainder bsize_row bsize_col : Nat) :
    List (Nat × Nat) :=
  (List.range row_remainder ×ˢ List.range col_remainder).map
    fun x => (col_blocks * bsize_col + x.2, row_blocks * bsize_row + x.1)

/-- All cells assigned by the four loop nests of `optTranspose` on a `rows` x `cols`
matrix, in order of assignment. -/
def optStores (rows cols bsize_row bsize_col : Nat) : List (Nat × Nat) :=
  gridStores (rows / bsize_row) (cols / bsize_col) bsize_row bsize_col
  ++ bottomStores (rows / bsize_row) (cols / bsize_col) (rows % bsize_row) bsize_row bsize_col
  ++ rightStores (rows / bsize_row) (cols / bsize_col) (cols % bsize_col) bsize_row bsize_col
  ++ cornerStores (rows / bsize_row) (cols / bsize_col) (rows % bsize_row) (cols % bsize_col)
      bsize_row bsize_col

/-- The `r` x `c` matrix whose cell `(i, j)` holds `w (i, j)`. -/
def ofFn (r c : Nat) (w : Nat × Nat → T) : Matrix T :=
  { data := (List.range r).map fun i => (List.range c).map fun j => w (i, j),
    rows := r, cols := c }

/-- The number of elements held by the storage. -/
def size (m : Matrix T) : Nat := (m.data.map List.length).sum

/-- The running sum of `f i j` over the positions `(i, j)` of an `r` x `c` matrix in
row-major order, accumulated from `T()`. -/
def rowMajorSum [Zero T] [Add T] (r c : Nat) (f : Nat → Nat → T) : T :=
  (List.range r ×ˢ List.range c).foldl (fun s p => s + f p.1 p.2) 0

/-- The sum of `f 0`, ..., `f (n - 1)`, accumulated from `T()` in increasing index. -/
def sumUpTo [Zero T] [Add T] : Nat → (Nat → T) → T
  | 0, _ => 0
  | n + 1, f => sumUpTo n f + f n

/-- The matrix of the sums `A(i,0) * B(0,j) + ... ` accumulated from `T()` in increasing
`k`, with `A.rows` rows and `B.cols` columns. -/
def mulResult [Zero T] [Add T] [Mul T] (A B : Matrix T) : Matrix T :=
  ofFn A.rows B.cols (fun q => sumUpTo A.cols (fun k => A.entry q.1 k * B.entry k q.2))

end Matrix

/-! ### Element types of the program: `double` / `float` and `int` -/

/-- A fragment of the values of `double` and `float` (IEEE 754): the whole numbers that
are represented exactly, with `num 0` for `+0.0`, the negative zero, the two infinities
and NaN. -/
inductive Fp where
  /-- The finite value `x`; `num 0` is `+0.0`. -/
  | num (x : Int)
  /-- The value `-0.0`. -/
  | negZero
  /-- The value `+inf`, or `-inf` when `negative` is set. -/
  | inf (negative : Bool)
  /-- A NaN. -/
  | nan
  deriving DecidableEq, Repr

/-- Unary minus of IEEE 754. -/
def Fp.neg : Fp → Fp
  | .num x => if x = 0 then .negZero else .num (-x)
  | .negZero => .num 0
  | .inf s => .inf (!s)
  | .nan => .nan

/-- Addition of IEEE 754 (round to nearest) on the fragment. -/
def Fp.add : Fp → Fp → Fp
  | .nan, _ => .nan
  | _, .nan => .nan
  | .inf s, .inf t => if s = t then .inf s else .nan
  | .inf s, _ => .inf s
  | _, .inf t => .inf t
  | .negZero, .negZero => .negZero
  | .negZero, .num y => .num y
  | .num x, .negZero => .num x
  | .num x, .num y => .num (x + y)

/-- Subtraction of IEEE 754: `a - b` is `a + (-b)`. -/
def Fp.sub (a b : Fp) : Fp := Fp.add a (Fp.neg b)

/-- The comparison `a == b` of IEEE 754: a NaN equals nothing, the two zeros are
equal. -/
def Fp.eq : Fp → Fp → Bool
  | .nan, _ => false
  | _, .nan => false
  | .negZero, .negZero => true
  | .negZero, .num y => decide (y = 0)
  | .num x, .negZero => decide (x = 0)
  | .num x, .num y => decide (x = y)
  | .inf s, .inf t => decide (s = t)
  | _, _ => false

instance : Zero Fp := ⟨Fp.num 0⟩

instance : Add Fp := ⟨Fp.add⟩

instance : Sub Fp := ⟨Fp.sub⟩

/-- Reduction of an integer to the range of a 32-bit two's complement `int`. -/
def wrap32 (x : Int) : Int := (x + 2147483648) % 4294967296 - 2147483648

/-- The element type `int` (32 bits); arithmetic that leaves the range wraps around, as
the compiled program does. -/
structure I32 where
  val : Int
  deriving DecidableEq, Repr

instance : Zero I32 := ⟨⟨0⟩⟩

instance : Add I32 := ⟨fun a b => ⟨wrap32 (a.val + b.val)⟩⟩

instance : Sub I32 := ⟨fun a b => ⟨wrap32 (a.val - b.val)⟩⟩

instance : Mul I32 := ⟨fun a b => ⟨wrap32 (a.val * b.val)⟩⟩

/-- The call `std::sqrt(sum)` on an `int` followed by the conversion of the `double`
result back to `int`.  On a non-negative argument this is the integer part of the
square root.  On a negative argument `std::sqrt` gives NaN, and the conversion of NaN
to `int` gives `INT_MIN` on x86-64. -/
def I32.sqrt (s : I32) : I32 :=
  if 0 ≤ s.val then ⟨(Nat.sqrt s.val.toNat : Int)⟩ else ⟨-2147483648⟩

/-- The sum of the squares of the elements of a matrix of `int`, as an exact integer,
accumulated in row-major order. -/
def exactSumSquares (A : Matrix I32) : Int :=
  Matrix.rowMajorSum A.rows A.cols (fun i j => (A.entry i j).val * (A.entry i j).val)

/-- The 1 x 1 matrix `[[-0.0]]` of `double`. -/
def fpNegZero : Matrix Fp := ⟨[[Fp.negZero]], 1, 1⟩

/-- The 1 x 1 matrix `[[NaN]]` of `double`. -/
def fpNan : Matrix Fp := ⟨[[Fp.nan]], 1, 1⟩

/-- The 1 x 1 matrix `[[+inf]]` of `double`. -/
def fpInf : Matrix Fp := ⟨[[Fp.inf false]], 1, 1⟩

/-- The 2 x 2 matrix `[[1.0, -2.0], [0.0, 7.0]]` of `double`. -/
def fpFinite : Matrix Fp := ⟨[[Fp.num 1, Fp.num (-2)], [Fp.num 0, Fp.num 7]], 2, 2⟩

/-- The 1 x 1 matrix `[[46341]]` of `int`; the square of 46341 exceeds `INT_MAX`. -/
def i32Big : Matrix I32 := ⟨[[⟨46341⟩]], 1, 1⟩

/-- The 3 x 3 matrix of `int` filled with 1..9 in row-major order, `m1` of `main.cpp`. -/
def i32M : Matrix I32 :=
  ⟨[[⟨1⟩, ⟨2⟩, ⟨3⟩], [⟨4⟩, ⟨5⟩, ⟨6⟩], [⟨7⟩, ⟨8⟩, ⟨9⟩]], 3, 3⟩

/-- The element type `int` read as the exact integers: `std::sqrt` applied to an `int`
(through `double`) and converted back to `int`, which truncates; on the non-negative
arguments that a sum of squares produces this is the integer part of the square root. -/
def intSqrt (s : Int) : Int := (Nat.sqrt s.toNat : Int)

/-- The 3 x 3 example matrix filled with 1..9 in row-major order, `m1` of `main.cpp`. -/
def exM : Matrix Int := ⟨[[1, 2, 3], [4, 5, 6], [7, 8, 9]], 3, 3⟩

/-- The 2 x 3 example matrix `[[1,2,3],[4,5,6]]`. -/
def exA : Matrix Int := ⟨[[1, 2, 3], [4, 5, 6]], 2, 3⟩

/-- The 3 x 2 example matrix `[[7,8],[9,10],[11,12]]`. -/
def exB : Matrix Int := ⟨[[7, 8], [9, 10], [11, 12]], 3, 2⟩

/-- The 2 x 2 matrix `[[58,64],[139,154]]`, the product of `exA` and `exB`. -/
def exC : Matrix Int := ⟨[[58, 64], [139, 154]], 2, 2⟩

/-- A 2 x 2 matrix of ones. -/
def exD : Matrix Int := ⟨[[1, 1], [1, 1]], 2, 2⟩

/-- The 3 x 2 matrix `[[1,4],[2,5],[3,6]]`, the transpose of `exA`. -/
def exAt : Matrix Int := ⟨[[1, 4], [2, 5], [3, 6]], 3, 2⟩



/-! ## Runs and loops -/

theorem Run.ret_andThen {α β : Type} (a : α) (f : α → Run β) :
    (Run.ret a).andThen f = f a := by
  simp [Run.ret, Run.andThen]

theorem Run.eval_ok_andThen {α β : Type} (a : α) (f : α → Run β) :
    (Run.eval (.ok a)).andThen f = f a := by
  simp [Run.eval, Run.andThen]

theorem Run.eval_error_andThen {α β : Type} (e : Failure) (f : α → Run β) :
    (Run.eval (.error e)).andThen f = Run.fail e := by
  simp [Run.eval, Run.andThen, Run.fail]

theorem Run.mk_ok_andThen {α β : Type} (t : List (Nat × Nat)) (a : α) (f : α → Run β) :
    (Run.mk t (.ok a)).andThen f = ⟨t ++ (f a).stores, (f a).out⟩ := by
  simp [Run.andThen]

theorem Run.andThen_assoc {α β γ : Type} (x : Run α) (f : α → Run β) (g : β → Run γ) :
    (x.andThen f).andThen g = x.andThen (fun a => (f a).andThen g) := by
  obtain ⟨t, o⟩ := x
  cases o with
  | error e => simp [Run.andThen]
  | ok a =>
    simp only [Run.andThen]
    cases h : (f a).out <;> simp [h]

theorem forIdx_nil {ι σ : Type} (body : ι → σ → Run σ) (s : σ) :
    forIdx [] body s = Run.ret s := rfl

theorem forIdx_cons {ι σ : Type} (i : ι) (l : List ι) (body : ι → σ → Run σ) (s : σ) :
    forIdx (i :: l) body s = (body i s).andThen (forIdx l body) := rfl

theorem forIdx_append {ι σ : Type} (l₁ l₂ : List ι) (body : ι → σ → Run σ) (s : σ) :
    forIdx (l₁ ++ l₂) body s = (forIdx l₁ body s).andThen (forIdx l₂ body) := by
  induction l₁ generalizing s with
  | nil => simp [forIdx_nil, Run.ret_andThen]
  | cons i l ih =>
    simp only [List.cons_append, forIdx_cons, Run.andThen_assoc]
    congr 1
    funext s1
    exact ih s1

theorem forIdx_map {κ ι σ : Type} (f : κ → ι) (l : List κ) (body : ι → σ → Run σ) (s : σ) :
    forIdx (l.map f) body s = forIdx l (fun k => body (f k)) s := by
  induction l generalizing s with
  | nil => rfl
  | cons k l ih =>
    simp only [List.map_cons, forIdx_cons]
    congr 1
    funext s1
    exact ih s1

/-- A loop nest runs its body over the pairs of indices in lexicographic order. -/
theorem forIdx_product {ι κ σ : Type} (l₁ : List ι) (l₂ : List κ)
    (body : ι → κ → σ → Run σ) (s : σ) :
    forIdx l₁ (fun i s => forIdx l₂ (fun k s => body i k s) s) s
      = forIdx (l₁ ×ˢ l₂) (fun p s => body p.1 p.2 s) s := by
  induction l₁ generalizing s with
  | nil => rfl
  | cons i l ih =>
    rw [List.product_cons, forIdx_append, forIdx_cons, forIdx_map]
    congr 1
    funext s1
    exact ih s1

/-! ## Cells of well-formed matrices -/

namespace Matrix

variable {T : Type}

theorem cell_eq_some_of_wf (m : Matrix T) (h : m.WF) {r c : Nat} (hr : r < m.rows)
    (hc : c < m.cols) : ∃ v, m.cell r c = some v := by
  obtain ⟨hlen, hrow⟩ := h
  have hr1 : r < m.data.length := by omega
  have hmem : m.data[r] ∈ m.data := List.getElem_mem hr1
  have hc1 : c < (m.data[r]).length := by rw [hrow _ hmem]; exact hc
  exact ⟨(m.data[r])[c], by simp [cell, List.getElem?_eq_getElem hr1, List.getElem?_eq_getElem hc1]⟩

theorem cell_eq_entry [Zero T] (m : Matrix T) (h : m.WF) {r c : Nat} (hr : r < m.rows)
    (hc : c < m.cols) : m.cell r c = some (m.entry r c) := by
  obtain ⟨v, hv⟩ := cell_eq_some_of_wf m h hr hc
  simp [entry, hv]

theorem cell_eq_none_of_wf (m : Matrix T) (h : m.WF) {r c : Nat}
    (hrc : m.rows ≤ r ∨ m.cols ≤ c) : m.cell r c = none := by
  obtain ⟨hlen, hrow⟩ := h
  unfold cell
  cases hd : m.data[r]? with
  | none => rfl
  | some vec =>
    have hmem : vec ∈ m.data := List.getElem?_mem hd
    have hr1 : r < m.data.length := by
      by_contra hcon
      rw [List.getElem?_eq_none (by omega)] at hd
      cases hd
    have hc : m.cols ≤ c := by omega
    simp only
    exact List.getElem?_eq_none (by rw [hrow _ hmem]; exact hc)

theorem raw_eq_entry [Zero T] (m : Matrix T) (h : m.WF) {r c : Nat} (hr : r < m.rows)
    (hc : c < m.cols) : m.raw r c = .ok (m.entry r c) := by
  simp [raw, cell_eq_entry m h hr hc]

theorem getAt_eq_entry [Zero T] (m : Matrix T) (h : m.WF) {r c : Nat} (hr : r < m.rows)
    (hc : c < m.cols) : m.getAt r c = .ok (m.entry r c) := by
  have : ¬ (r ≥ m.rows ∨ c ≥ m.cols) := by omega
  simp [getAt, this, raw_eq_entry m h hr hc]

theorem refAt_eq_of_wf (m : Matrix T) (h : m.WF) {r c : Nat} (hr : r < m.rows)
    (hc : c < m.cols) : m.refAt r c = .ok (r, c) := by
  obtain ⟨v, hv⟩ := cell_eq_some_of_wf m h hr hc
  have : ¬ (r ≥ m.rows ∨ c ≥ m.cols) := by omega
  simp [refAt, this, hv]

theorem store_eq_of_wf (m : Matrix T) (h : m.WF) {r c : Nat} (hr : r < m.rows)
    (hc : c < m.cols) (v : T) : m.store r c v = ⟨[(r, c)], .ok (m.poke (r, c) v)⟩ := by
  simp [store, refAt_eq_of_wf m h hr hc]

theorem poke_rows (m : Matrix T) (p : Nat × Nat) (v : T) : (m.poke p v).rows = m.rows := rfl

theorem poke_cols (m : Matrix T) (p : Nat × Nat) (v : T) : (m.poke p v).cols = m.cols := rfl

theorem poke_wf (m : Matrix T) (h : m.WF) (p : Nat × Nat) (v : T) : (m.poke p v).WF := by
  obtain ⟨hlen, hrow⟩ := h
  refine ⟨by simp [poke, hlen], ?_⟩
  intro vec hvec
  simp only [poke] at hvec
  rcases List.mem_or_eq_of_mem_set hvec with hm | he
  · exact hrow _ hm
  · subst he
    rw [List.length_set, List.getD_eq_getElem?_getD]
    cases hd : m.data[p.1]? with
    | none =>
      rw [List.set_eq_of_length_le (List.getElem?_eq_none_iff.mp hd)] at hvec
      simpa [List.getD_eq_getElem?_getD, hd] using hrow _ hvec
    | some vec => exact hrow _ (List.getElem?_mem hd)

theorem poke_shaped {R C : Nat} (m : Matrix T) (h : m.Shaped R C) (p : Nat × Nat) (v : T) :
    (m.poke p v).Shaped R C :=
  ⟨poke_wf m h.1 p v, h.2.1, h.2.2⟩

/-- The cells of a matrix after one assignment inside its shape. -/
theorem cell_poke (m : Matrix T) (h : m.WF) (p : Nat × Nat) (hp1 : p.1 < m.rows)
    (hp2 : p.2 < m.cols) (v : T) (r c : Nat) :
    (m.poke p v).cell r c = if (r, c) = p then some v else m.cell r c := by
  obtain ⟨hlen, hrow⟩ := h
  obtain ⟨a, b⟩ := p
  simp only at hp1 hp2
  have ha : a < m.data.length := by omega
  have hda : m.data[a]? = some m.data[a] := List.getElem?_eq_getElem ha
  have hb : b < (m.data[a]).length := by rw [hrow _ (List.getElem_mem ha)]; exact hp2
  simp only [cell, poke, List.getElem?_set, List.getD_eq_getElem?_getD, hda, Option.getD_some,
    Prod.mk.injEq]
  by_cases hra : a = r
  · subst hra
    simp only [ha, if_true, true_and, List.getElem?_set, hb, hda]
    by_cases hcb : b = c
    · subst hcb; simp
    · have : ¬ c = b := fun h => hcb h.symm
      simp [hcb, this]
  · have : ¬ r = a := fun h => hra h.symm
    simp [hra, this]

theorem pokeAll_nil (w : Nat × Nat → T) (m : Matrix T) : pokeAll w [] m = m := rfl

theorem pokeAll_cons (w : Nat × Nat → T) (p : Nat × Nat) (ps : List (Nat × Nat))
    (m : Matrix T) : pokeAll w (p :: ps) m = pokeAll w ps (m.poke p (w p)) := rfl

theorem pokeAll_append (w : Nat × Nat → T) (ps qs : List (Nat × Nat)) (m : Matrix T) :
    pokeAll w (ps ++ qs) m = pokeAll w qs (pokeAll w ps m) := by
  simp [pokeAll, List.foldl_append]

theorem pokeAll_shaped {R C : Nat} (w : Nat × Nat → T) (ps : List (Nat × Nat))
    (m : Matrix T) (h : m.Shaped R C) : (pokeAll w ps m).Shaped R C := by
  induction ps generalizing m with
  | nil => exact h
  | cons p ps ih => exact ih _ (poke_shaped m h p (w p))

/-- The cells of a matrix after a series of assignments `m(p) = w p` inside its shape:
an assigned cell holds `w p`, any other cell is unchanged. -/
theorem cell_pokeAll {R C : Nat} (w : Nat × Nat → T) (ps : List (Nat × Nat))
    (hps : ∀ p ∈ ps, p.1 < R ∧ p.2 < C) (m : Matrix T) (h : m.Shaped R C) (r c : Nat) :
    (pokeAll w ps m).cell r c = if (r, c) ∈ ps then some (w (r, c)) else m.cell r c := by
  induction ps generalizing m with
  | nil => simp [pokeAll_nil]
  | cons p ps ih =>
    have hp := hps p (List.mem_cons_self _ _)
    rw [pokeAll_cons, ih (fun q hq => hps q (List.mem_cons_of_mem _ hq)) _
      (poke_shaped m h p (w p))]
    rw [cell_poke m h.1 p (by rw [h.2.1]; exact hp.1) (by rw [h.2.2]; exact hp.2)]
    by_cases h1 : (r, c) ∈ ps
    · simp [h1]
    · by_cases h2 : (r, c) = p
      · simp [h2]
      · simp [h1, h2]

theorem zero_shaped [Zero T] (R C : Nat) : (zero R C : Matrix T).Shaped R C := by
  refine ⟨⟨by simp [zero], ?_⟩, rfl, rfl⟩
  intro vec hvec
  simp only [zero] at hvec
  rw [List.eq_of_mem_replicate hvec]
  simp [zero]

theorem fill_shaped (R C : Nat) (v : T) : (fill R C v).Shaped R C := by
  refine ⟨⟨by simp [fill], ?_⟩, rfl, rfl⟩
  intro vec hvec
  simp only [fill] at hvec
  rw [List.eq_of_mem_replicate hvec]
  simp [fill]

/-- Two well-formed matrices of one shape with the same cells are the same matrix. -/
theorem eq_of_cells {R C : Nat} (a b : Matrix T) (ha : a.Shaped R C) (hb : b.Shaped R C)
    (h : ∀ r c, r < R → c < C → a.cell r c = b.cell r c) : a = b := by
  obtain ⟨ad, ar, ac⟩ := a
  obtain ⟨bd, br, bc⟩ := b
  obtain ⟨⟨hal, har⟩, har2, hac2⟩ := ha
  obtain ⟨⟨hbl, hbr⟩, hbr2, hbc2⟩ := hb
  simp only at hal har har2 hac2 hbl hbr hbr2 hbc2
  subst har2 hac2
  subst hbr2
  subst hbc2
  simp only [mk.injEq, and_true]
  apply List.ext_getElem (by omega)
  intro r h1 h2
  have h3 := har _ (List.getElem_mem h1)
  have h4 := hbr _ (List.getElem_mem h2)
  apply List.ext_getElem (by omega)
  intro c h5 h6
  have := h r c (by omega) (by omega)
  simpa [cell, List.getElem?_eq_getElem h1, List.getElem?_eq_getElem h2,
    List.getElem?_eq_getElem h5, List.getElem?_eq_getElem h6] using this

/-! ## Loops that assign one cell per iteration -/

/-- A loop whose every iteration performs the single assignment
`result(d x) = w (d x)` inside the shape of `result`. -/
theorem forIdx_store {ι : Type} {R C : Nat} (d : ι → Nat × Nat) (w : Nat × Nat → T)
    (body : ι → Matrix T → Run (Matrix T)) (l : List ι)
    (hd : ∀ x ∈ l, (d x).1 < R ∧ (d x).2 < C)
    (hbody : ∀ x ∈ l, ∀ s : Matrix T, s.Shaped R C →
      body x s = ⟨[d x], .ok (s.poke (d x) (w (d x)))⟩)
    (m : Matrix T) (hm : m.Shaped R C) :
    forIdx l body m = ⟨l.map d, .ok (pokeAll w (l.map d) m)⟩ := by
  induction l generalizing m with
  | nil => rfl
  | cons x l ih =>
    rw [forIdx_cons, hbody x (List.mem_cons_self _ _) m hm, Run.mk_ok_andThen,
      ih (fun y hy => hd y (List.mem_cons_of_mem _ hy))
        (fun y hy => hbody y (List.mem_cons_of_mem _ hy)) _ (poke_shaped m hm _ _)]
    simp [pokeAll_cons]

end Matrix

/-- A loop whose iterations assign nothing and update the carried value by `g`. -/
theorem forIdx_pure {ι σ : Type} (g : σ → ι → σ) (body : ι → σ → Run σ) (l : List ι)
    (hbody : ∀ x ∈ l, ∀ s, body x s = Run.ret (g s x)) (s : σ) :
    forIdx l body s = Run.ret (l.foldl g s) := by
  induction l generalizing s with
  | nil => rfl
  | cons x l ih =>
    rw [forIdx_cons, hbody x (List.mem_cons_self _ _) s, Run.ret_andThen,
      ih (fun y hy => hbody y (List.mem_cons_of_mem _ hy))]
    rfl

namespace Matrix

variable {T : Type}

/-- The positions `(i, j)` visited by `for i < n` / `for j < m`, in order. -/
theorem mem_range_product {n m : Nat} {p : Nat × Nat} :
    p ∈ List.range n ×ˢ List.range m ↔ p.1 < n ∧ p.2 < m := by
  obtain ⟨a, b⟩ := p
  simp [List.mem_product]

/-- What a run of `transpose` does on a well-formed matrix. -/
theorem transpose_run [Zero T] (A : Matrix T) (h : A.WF) :
    A.transpose = ⟨(List.range A.rows ×ˢ List.range A.cols).map (fun p => (p.2, p.1)),
      .ok (pokeAll (fun q => A.entry q.2 q.1)
        ((List.range A.rows ×ˢ List.range A.cols).map (fun p => (p.2, p.1)))
        (zero A.cols A.rows))⟩ := by
  unfold transpose forLoop
  rw [forIdx_product]
  apply forIdx_store (R := A.cols) (C := A.rows) (fun p : Nat × Nat => (p.2, p.1))
  · intro x hx
    have := mem_range_product.mp hx
    exact ⟨this.2, this.1⟩
  · intro x hx s hs
    have hx2 := mem_range_product.mp hx
    simp only
    rw [raw_eq_entry A h hx2.1 hx2.2, Run.eval_ok_andThen,
      store_eq_of_wf s hs.1 (by rw [hs.2.1]; exact hx2.2) (by rw [hs.2.2]; exact hx2.1)]
  · exact zero_shaped _ _

/-! ## The blocked transpose -/

theorem block_index_lt {n b q i : Nat} (hq : q < n / b) (hi : i < b) : q * b + i < n := by
  have h1 : (q + 1) * b ≤ n / b * b := Nat.mul_le_mul_right b hq
  have h2 : n / b * b ≤ n := Nat.div_mul_le_self n b
  have h3 : (q + 1) * b = q * b + b := by ring
  omega

theorem rem_index_lt {n b i : Nat} (hi : i < n % b) : n / b * b + i < n := by
  have := Nat.div_add_mod' n b
  omega

/-- A loop that copies `data[fr x][fc x]` to `result(fc x, fr x)` for each index `x`. -/
theorem forIdx_copy [Zero T] (A : Matrix T) (h : A.WF) {ι : Type} (l : List ι)
    (fr fc : ι → Nat) (hl : ∀ x ∈ l, fr x < A.rows ∧ fc x < A.cols)
    (m : Matrix T) (hm : m.Shaped A.cols A.rows) :
    forIdx l (fun x s => A.copyCell (fr x) (fc x) s) m
      = ⟨l.map (fun x => (fc x, fr x)),
          .ok (pokeAll (fun q => A.entry q.2 q.1) (l.map (fun x => (fc x, fr x))) m)⟩ := by
  apply forIdx_store (R := A.cols) (C := A.rows) (fun x => (fc x, fr x))
  · intro x hx
    exact ⟨(hl x hx).2, (hl x hx).1⟩
  · intro x hx s hs
    have hx2 := hl x hx
    simp only [copyCell]
    rw [raw_eq_entry A h hx2.1 hx2.2, Run.eval_ok_andThen,
      store_eq_of_wf s hs.1 (by rw [hs.2.1]; exact hx2.2) (by rw [hs.2.2]; exact hx2.1)]
  · exact hm

theorem grid_run [Zero T] (A : Matrix T) (h : A.WF) (bsr bsc : Nat)
    (m : Matrix T) (hm : m.Shaped A.cols A.rows) :
    forLoop (A.rows / bsr) (fun rBlockIdx result =>
      forLoop (A.cols / bsc) (fun cBlockIdx result =>
        forLoop bsr (fun i result =>
          forLoop bsc (fun j result =>
            A.copyCell (rBlockIdx * bsr + i) (cBlockIdx * bsc + j) result)
            result) result) result) m
      = ⟨gridStores (A.rows / bsr) (A.cols / bsc) bsr bsc,
          .ok (pokeAll (fun q => A.entry q.2 q.1)
            (gridStores (A.rows / bsr) (A.cols / bsc) bsr bsc) m)⟩ := by
  unfold forLoop
  rw [forIdx_product, forIdx_product, forIdx_product]
  refine forIdx_copy A h _ (fun x : ((Nat × Nat) × Nat) × Nat => x.1.1.1 * bsr + x.1.2)
    (fun x => x.1.1.2 * bsc + x.2) ?_ m hm
  rintro ⟨⟨⟨rB, cB⟩, i⟩, j⟩ hx
  simp only [List.mem_product, List.mem_range] at hx
  exact ⟨block_index_lt hx.1.1.1 hx.1.2, block_index_lt hx.1.1.2 hx.2⟩

theorem bottom_run [Zero T] (A : Matrix T) (h : A.WF) (bsr bsc : Nat)
    (m : Matrix T) (hm : m.Shaped A.cols A.rows) :
    forLoop (A.cols / bsc) (fun cBlockIdx result =>
      forLoop (A.rows % bsr) (fun i result =>
        forLoop bsc (fun j result =>
          A.copyCell (A.rows / bsr * bsr + i) (cBlockIdx * bsc + j) result)
          result) result) m
      = ⟨bottomStores (A.rows / bsr) (A.cols / bsc) (A.rows % bsr) bsr bsc,
          .ok (pokeAll (fun q => A.entry q.2 q.1)
            (bottomStores (A.rows / bsr) (A.cols / bsc) (A.rows % bsr) bsr bsc) m)⟩ := by
  unfold forLoop
  rw [forIdx_product, forIdx_product]
  refine forIdx_copy A h _ (fun x : (Nat × Nat) × Nat => A.rows / bsr * bsr + x.1.2)
    (fun x => x.1.1 * bsc + x.2) ?_ m hm
  rintro ⟨⟨cB, i⟩, j⟩ hx
  simp only [List.mem_product, List.mem_range] at hx
  exact ⟨rem_index_lt hx.1.2, block_index_lt hx.1.1 hx.2⟩

theorem right_run [Zero T] (A : Matrix T) (h : A.WF) (bsr bsc : Nat)
    (m : Matrix T) (hm : m.Shaped A.cols A.rows) :
    forLoop (A.rows / bsr) (fun rBlockIdx result =>
      forLoop bsr (fun i result =>
        forLoop (A.cols % bsc) (fun j result =>
          A.copyCell (rBlockIdx * bsr + i) (A.cols / bsc * bsc + j) result)
          result) result) m
      = ⟨rightStores (A.rows / bsr) (A.cols / bsc) (A.cols % bsc) bsr bsc,
          .ok (pokeAll (fun q => A.entry q.2 q.1)
            (rightStores (A.rows / bsr) (A.cols / bsc) (A.cols % bsc) bsr bsc) m)⟩ := by
  unfold forLoop
  rw [forIdx_product, forIdx_product]
  refine forIdx_copy A h _ (fun x : (Nat × Nat) × Nat => x.1.1 * bsr + x.1.2)
    (fun x => A.cols / bsc * bsc + x.2) ?_ m hm
  rintro ⟨⟨rB, i⟩, j⟩ hx
  simp only [List.mem_product, List.mem_range] at hx
  exact ⟨block_index_lt hx.1.1 hx.1.2, rem_index_lt hx.2⟩

theorem corner_run [Zero T] (A : Matrix T) (h : A.WF) (bsr bsc : Nat)
    (m : Matrix T) (hm : m.Shaped A.cols A.rows) :
    forLoop (A.rows % bsr) (fun i result =>
      forLoop (A.cols % bsc) (fun j result =>
        A.copyCell (A.rows / bsr * bsr + i) (A.cols / bsc * bsc + j) result) result) m
      = ⟨cornerStores (A.rows / bsr) (A.cols / bsc) (A.rows % bsr) (A.cols % bsc) bsr bsc,
          .ok (pokeAll (fun q => A.entry q.2 q.1)
            (cornerStores (A.rows / bsr) (A.cols / bsc) (A.rows % bsr) (A.cols % bsc) bsr bsc)
            m)⟩ := by
  unfold forLoop
  rw [forIdx_product]
  refine forIdx_copy A h _ (fun x : Nat × Nat => A.rows / bsr * bsr + x.1)
    (fun x => A.cols / bsc * bsc + x.2) ?_ m hm
  rintro ⟨i, j⟩ hx
  simp only [List.mem_product, List.mem_range] at hx
  exact ⟨rem_index_lt hx.1, rem_index_lt hx.2⟩

theorem bottomStores_zero (rb cb bsr bsc : Nat) : bottomStores rb cb 0 bsr bsc = [] := by
  simp [bottomStores]

theorem rightStores_zero (rb cb bsr bsc : Nat) : rightStores rb cb 0 bsr bsc = [] := by
  simp [rightStores]

theorem cornerStores_zero_left (rb cb cr bsr bsc : Nat) :
    cornerStores rb cb 0 cr bsr bsc = [] := by
  simp [cornerStores]

theorem cornerStores_zero_right (rb cb rr bsr bsc : Nat) :
    cornerStores rb cb rr 0 bsr bsc = [] := by
  simp [cornerStores]

theorem bottom_phase [Zero T] (A : Matrix T) (h : A.WF) (bsr bsc : Nat)
    (m : Matrix T) (hm : m.Shaped A.cols A.rows) :
    (if A.rows % bsr > 0 then
      forLoop (A.cols / bsc) (fun cBlockIdx result =>
        forLoop (A.rows % bsr) (fun i result =>
          forLoop bsc (fun j result =>
            A.copyCell (A.rows / bsr * bsr + i) (cBlockIdx * bsc + j) result)
            result) result) m
     else Run.ret m)
      = ⟨bottomStores (A.rows / bsr) (A.cols / bsc) (A.rows % bsr) bsr bsc,
          .ok (pokeAll (fun q => A.entry q.2 q.1)
            (bottomStores (A.rows / bsr) (A.cols / bsc) (A.rows % bsr) bsr bsc) m)⟩ := by
  split
  · exact bottom_run A h bsr bsc m hm
  · have h0 : A.rows % bsr = 0 := by omega
    rw [h0, bottomStores_zero]
    rfl

theorem right_phase [Zero T] (A : Matrix T) (h : A.WF) (bsr bsc : Nat)
    (m : Matrix T) (hm : m.Shaped A.cols A.rows) :
    (if A.cols % bsc > 0 then
      forLoop (A.rows / bsr) (fun rBlockIdx result =>
        forLoop bsr (fun i result =>
          forLoop (A.cols % bsc) (fun j result =>
            A.copyCell (rBlockIdx * bsr + i) (A.cols / bsc * bsc + j) result)
            result) result) m
     else Run.ret m)
      = ⟨rightStores (A.rows / bsr) (A.cols / bsc) (A.cols % bsc) bsr bsc,
          .ok (pokeAll (fun q => A.entry q.2 q.1)
            (rightStores (A.rows / bsr) (A.cols / bsc) (A.cols % bsc) bsr bsc) m)⟩ := by
  split
  · exact right_run A h bsr bsc m hm
  · have h0 : A.cols % bsc = 0 := by omega
    rw [h0, rightStores_zero]
    rfl

theorem corner_phase [Zero T] (A : Matrix T) (h : A.WF) (bsr bsc : Nat)
    (m : Matrix T) (hm : m.Shaped A.cols A.rows) :
    (if A.rows % bsr > 0 ∧ A.cols % bsc > 0 then
      forLoop (A.rows % bsr) (fun i result =>
        forLoop (A.cols % bsc) (fun j result =>
          A.copyCell (A.rows / bsr * bsr + i) (A.cols / bsc * bsc + j) result) result) m
     else Run.ret m)
      = ⟨cornerStores (A.rows / bsr) (A.cols / bsc) (A.rows % bsr) (A.cols % bsc) bsr bsc,
          .ok (pokeAll (fun q => A.entry q.2 q.1)
            (cornerStores (A.rows / bsr) (A.cols / bsc) (A.rows % bsr) (A.cols % bsc) bsr bsc)
            m)⟩ := by
  split
  · exact corner_run A h bsr bsc m hm
  · next hn =>
    by_cases h0 : A.rows % bsr = 0
    · rw [h0, cornerStores_zero_left]
      rfl
    · have h1 : A.cols % bsc = 0 := by omega
      rw [h1, cornerStores_zero_right]
      rfl

/-- What a run of `optTranspose` does on a well-formed matrix with block sizes of at
least one: the cells it assigns, in order, and the matrix it returns. -/
theorem optTranspose_run [Zero T] (A : Matrix T) (h : A.WF) (bsr bsc : Nat)
    (hr : 1 ≤ bsr) (hc : 1 ≤ bsc) :
    A.optTranspose bsr bsc
      = ⟨optStores A.rows A.cols bsr bsc,
          .ok (pokeAll (fun q => A.entry q.2 q.1) (optStores A.rows A.cols bsr bsc)
            (zero A.cols A.rows))⟩ := by
  have hr0 : bsr ≠ 0 := by omega
  have hc0 : bsc ≠ 0 := by omega
  unfold optTranspose
  simp only [umod, udiv, hr0, hc0, if_false, Run.eval_ok_andThen]
  have s0 := zero_shaped (T := T) A.cols A.rows
  rw [grid_run A h bsr bsc _ s0, Run.mk_ok_andThen]
  have s1 := pokeAll_shaped (fun q => A.entry q.2 q.1)
    (gridStores (A.rows / bsr) (A.cols / bsc) bsr bsc) _ s0
  rw [bottom_phase A h bsr bsc _ s1, Run.mk_ok_andThen]
  have s2 := pokeAll_shaped (fun q => A.entry q.2 q.1)
    (bottomStores (A.rows / bsr) (A.cols / bsc) (A.rows % bsr) bsr bsc) _ s1
  rw [right_phase A h bsr bsc _ s2, Run.mk_ok_andThen]
  have s3 := pokeAll_shaped (fun q => A.entry q.2 q.1)
    (rightStores (A.rows / bsr) (A.cols / bsc) (A.cols % bsc) bsr bsc) _ s2
  rw [corner_phase A h bsr bsc _ s3]
  simp only [optStores, pokeAll_append, List.append_assoc]

/-! ### The cells assigned by the four loop nests -/

theorem block_decomp {k b r : Nat} (hb : 0 < b) :
    (∃ q i, q < k ∧ i < b ∧ q * b + i = r) ↔ r < k * b := by
  constructor
  · rintro ⟨q, i, hq, hi, rfl⟩
    have h1 : (q + 1) * b ≤ k * b := Nat.mul_le_mul_right b hq
    have h3 : (q + 1) * b = q * b + b := by ring
    omega
  · intro hr
    refine ⟨r / b, r % b, ?_, Nat.mod_lt _ hb, Nat.div_add_mod' r b⟩
    exact Nat.div_lt_of_lt_mul (by rw [Nat.mul_comm]; exact hr)

theorem offset_decomp {base k r : Nat} :
    (∃ i, i < k ∧ base + i = r) ↔ base ≤ r ∧ r < base + k := by
  constructor
  · rintro ⟨i, hi, rfl⟩
    omega
  · rintro ⟨h1, h2⟩
    exact ⟨r - base, by omega, by omega⟩

theorem block_inj {b q i q' i' : Nat} (hi : i < b) (hi' : i' < b)
    (h : q * b + i = q' * b + i') : q = q' ∧ i = i' := by
  have hb : 0 < b := by omega
  have h1 : (q * b + i) / b = q := by
    rw [Nat.add_comm, Nat.add_mul_div_right _ _ hb, Nat.div_eq_of_lt hi, Nat.zero_add]
  have h2 : (q' * b + i') / b = q' := by
    rw [Nat.add_comm, Nat.add_mul_div_right _ _ hb, Nat.div_eq_of_lt hi', Nat.zero_add]
  have hq : q = q' := by rw [← h1, ← h2, h]
  subst hq
  exact ⟨rfl, by omega⟩

theorem mem_gridStores {rb cb bsr bsc : Nat} (hr : 0 < bsr) (hc : 0 < bsc) (c r : Nat) :
    (c, r) ∈ gridStores rb cb bsr bsc ↔ r < rb * bsr ∧ c < cb * bsc := by
  rw [← block_decomp hr, ← block_decomp hc]
  simp only [gridStores, List.mem_map, List.mem_product, List.mem_range, Prod.exists,
    Prod.mk.injEq]
  constructor
  · rintro ⟨q, p, i, j, ⟨⟨⟨hq, hp⟩, hi⟩, hj⟩, h1, h2⟩
    exact ⟨⟨q, i, hq, hi, h2⟩, ⟨p, j, hp, hj, h1⟩⟩
  · rintro ⟨⟨q, i, hq, hi, h2⟩, ⟨p, j, hp, hj, h1⟩⟩
    exact ⟨q, p, i, j, ⟨⟨⟨hq, hp⟩, hi⟩, hj⟩, h1, h2⟩

theorem mem_bottomStores {rb cb rr bsr bsc : Nat} (hc : 0 < bsc) (c r : Nat) :
    (c, r) ∈ bottomStores rb cb rr bsr bsc
      ↔ (rb * bsr ≤ r ∧ r < rb * bsr + rr) ∧ c < cb * bsc := by
  rw [← offset_decomp, ← block_decomp hc]
  simp only [bottomStores, List.mem_map, List.mem_product, List.mem_range, Prod.exists,
    Prod.mk.injEq]
  constructor
  · rintro ⟨p, i, j, ⟨⟨hp, hi⟩, hj⟩, h1, h2⟩
    exact ⟨⟨i, hi, h2⟩, ⟨p, j, hp, hj, h1⟩⟩
  · rintro ⟨⟨i, hi, h2⟩, ⟨p, j, hp, hj, h1⟩⟩
    exact ⟨p, i, j, ⟨⟨hp, hi⟩, hj⟩, h1, h2⟩

theorem mem_rightStores {rb cb cr bsr bsc : Nat} (hr : 0 < bsr) (c r : Nat) :
    (c, r) ∈ rightStores rb cb cr bsr bsc
      ↔ r < rb * bsr ∧ (cb * bsc ≤ c ∧ c < cb * bsc + cr) := by
  rw [← offset_decomp, ← block_decomp hr]
  simp only [rightStores, List.mem_map, List.mem_product, List.mem_range, Prod.exists,
    Prod.mk.injEq]
  constructor
  · rintro ⟨q, i, j, ⟨⟨hq, hi⟩, hj⟩, h1, h2⟩
    exact ⟨⟨q, i, hq, hi, h2⟩, ⟨j, hj, h1⟩⟩
  · rintro ⟨⟨q, i, hq, hi, h2⟩, ⟨j, hj, h1⟩⟩
    exact ⟨q, i, j, ⟨⟨hq, hi⟩, hj⟩, h1, h2⟩

theorem mem_cornerStores {rb cb rr cr bsr bsc : Nat} (c r : Nat) :
    (c, r) ∈ cornerStores rb cb rr cr bsr bsc
      ↔ (rb * bsr ≤ r ∧ r < rb * bsr + rr) ∧ (cb * bsc ≤ c ∧ c < cb * bsc + cr) := by
  rw [← offset_decomp, ← offset_decomp]
  simp only [cornerStores, List.mem_map, List.mem_product, List.mem_range, Prod.exists,
    Prod.mk.injEq]
  constructor
  · rintro ⟨i, j, ⟨hi, hj⟩, h1, h2⟩
    exact ⟨⟨i, hi, h2⟩, ⟨j, hj, h1⟩⟩
  · rintro ⟨⟨i, hi, h2⟩, ⟨j, hj, h1⟩⟩
    exact ⟨i, j, ⟨hi, hj⟩, h1, h2⟩

/-- The four loop nests assign exactly the cells of the `cols` x `rows` result. -/
theorem mem_optStores {rows cols bsr bsc : Nat} (hr : 0 < bsr) (hc : 0 < bsc) (c r : Nat) :
    (c, r) ∈ optStores rows cols bsr bsc ↔ r < rows ∧ c < cols := by
  simp only [optStores, List.mem_append, mem_gridStores hr hc, mem_bottomStores hc,
    mem_rightStores hr, mem_cornerStores]
  have h1 := Nat.div_add_mod' rows bsr
  have h2 := Nat.div_add_mod' cols bsc
  generalize rows / bsr * bsr = X at *
  generalize cols / bsc * bsc = Y at *
  omega

theorem nodup_gridStores {rb cb bsr bsc : Nat} : (gridStores rb cb bsr bsc).Nodup := by
  unfold gridStores
  apply List.Nodup.map_on
  · rintro ⟨⟨⟨q, p⟩, i⟩, j⟩ hx ⟨⟨⟨q', p'⟩, i'⟩, j'⟩ hy hxy
    simp only [List.mem_product, List.mem_range] at hx hy
    simp only [Prod.mk.injEq] at hxy
    obtain ⟨e1, e2⟩ := block_inj hx.1.2 hy.1.2 hxy.2
    obtain ⟨e3, e4⟩ := block_inj hx.2 hy.2 hxy.1
    simp [e1, e2, e3, e4]
  · exact (((List.nodup_range _).product (List.nodup_range _)).product
      (List.nodup_range _)).product (List.nodup_range _)

theorem nodup_bottomStores {rb cb rr bsr bsc : Nat} :
    (bottomStores rb cb rr bsr bsc).Nodup := by
  unfold bottomStores
  apply List.Nodup.map_on
  · rintro ⟨⟨p, i⟩, j⟩ hx ⟨⟨p', i'⟩, j'⟩ hy hxy
    simp only [List.mem_product, List.mem_range] at hx hy
    simp only [Prod.mk.injEq] at hxy
    obtain ⟨e3, e4⟩ := block_inj hx.2 hy.2 hxy.1
    have e2 : i = i' := by omega
    simp [e2, e3, e4]
  · exact ((List.nodup_range _).product (List.nodup_range _)).product (List.nodup_range _)

theorem nodup_rightStores {rb cb cr bsr bsc : Nat} :
    (rightStores rb cb cr bsr bsc).Nodup := by
  unfold rightStores
  apply List.Nodup.map_on
  · rintro ⟨⟨q, i⟩, j⟩ hx ⟨⟨q', i'⟩, j'⟩ hy hxy
    simp only [List.mem_product, List.mem_range] at hx hy
    simp only [Prod.mk.injEq] at hxy
    obtain ⟨e1, e2⟩ := block_inj hx.1.2 hy.1.2 hxy.2
    have e4 : j = j' := by omega
    simp [e1, e2, e4]
  · exact ((List.nodup_range _).product (List.nodup_range _)).product (List.nodup_range _)

theorem nodup_cornerStores {rb cb rr cr bsr bsc : Nat} :
    (cornerStores rb cb rr cr bsr bsc).Nodup := by
  unfold cornerStores
  apply List.Nodup.map_on
  · rintro ⟨i, j⟩ hx ⟨i', j'⟩ hy hxy
    simp only [Prod.mk.injEq] at hxy
    have e2 : i = i' := by omega
    have e4 : j = j' := by omega
    simp [e2, e4]
  · exact (List.nodup_range _).product (List.nodup_range _)

/-- No cell is assigned twice by the four loop nests. -/
theorem nodup_optStores {rows cols bsr bsc : Nat} (hr : 0 < bsr) (hc : 0 < bsc) :
    (optStores rows cols bsr bsc).Nodup := by
  unfold optStores
  refine List.nodup_append.mpr ⟨List.nodup_append.mpr ⟨List.nodup_append.mpr
    ⟨nodup_gridStores, nodup_bottomStores, ?_⟩, nodup_rightStores, ?_⟩, nodup_cornerStores, ?_⟩
  · rintro ⟨c, r⟩ h1 h2
    rw [mem_gridStores hr hc] at h1
    rw [mem_bottomStores hc] at h2
    omega
  · rintro ⟨c, r⟩ h1 h2
    simp only [List.mem_append, mem_gridStores hr hc, mem_bottomStores hc] at h1
    rw [mem_rightStores hr] at h2
    omega
  · rintro ⟨c, r⟩ h1 h2
    simp only [List.mem_append, mem_gridStores hr hc, mem_bottomStores hc,
      mem_rightStores hr] at h1
    rw [mem_cornerStores] at h2
    omega

/-! ### Matrices given by their cells -/

theorem ofFn_shaped (R C : Nat) (w : Nat × Nat → T) : (ofFn R C w).Shaped R C := by
  refine ⟨⟨by simp [ofFn], ?_⟩, rfl, rfl⟩
  intro vec hvec
  simp only [ofFn, List.mem_map] at hvec
  obtain ⟨i, _, rfl⟩ := hvec
  simp [ofFn]

theorem cell_ofFn {R C : Nat} (w : Nat × Nat → T) {r c : Nat} (hr : r < R) (hc : c < C) :
    (ofFn R C w).cell r c = some (w (r, c)) := by
  simp [cell, ofFn, List.getElem?_map, List.getElem?_range, hr, hc]

/-- Assigning `w p` to every cell `p` of a matrix gives the matrix of the `w p`. -/
theorem pokeAll_cover {R C : Nat} (w : Nat × Nat → T) (ps : List (Nat × Nat))
    (hps : ∀ r c, (r, c) ∈ ps ↔ r < R ∧ c < C) (m : Matrix T) (hm : m.Shaped R C) :
    pokeAll w ps m = ofFn R C w := by
  apply eq_of_cells _ _ (pokeAll_shaped w ps m hm) (ofFn_shaped R C w)
  intro r c hr hc
  rw [cell_pokeAll w ps (fun p hp => (hps p.1 p.2).mp hp) m hm, cell_ofFn w hr hc,
    if_pos ((hps r c).mpr ⟨hr, hc⟩)]

theorem entry_ofFn [Zero T] {R C : Nat} (w : Nat × Nat → T) {r c : Nat} (hr : r < R)
    (hc : c < C) : (ofFn R C w).entry r c = w (r, c) := by
  simp [entry, cell_ofFn w hr hc]

/-- A well-formed matrix is the matrix of its entries. -/
theorem ofFn_entry [Zero T] (A : Matrix T) (h : A.WF) :
    ofFn A.rows A.cols (fun q => A.entry q.1 q.2) = A := by
  apply eq_of_cells _ _ (ofFn_shaped _ _ _) ⟨h, rfl, rfl⟩
  intro r c hr hc
  rw [cell_ofFn _ hr hc, cell_eq_entry A h hr hc]

theorem ofFn_congr {R C : Nat} (w w' : Nat × Nat → T)
    (h : ∀ r c, r < R → c < C → w (r, c) = w' (r, c)) : ofFn R C w = ofFn R C w' := by
  apply eq_of_cells _ _ (ofFn_shaped _ _ _) (ofFn_shaped _ _ _)
  intro r c hr hc
  rw [cell_ofFn _ hr hc, cell_ofFn _ hr hc, h r c hr hc]

/-! ### Results of the two transposes -/

theorem transpose_out [Zero T] (A : Matrix T) (h : A.WF) :
    A.transpose.out = .ok (ofFn A.cols A.rows (fun q => A.entry q.2 q.1)) := by
  rw [transpose_run A h]
  simp only [Except.ok.injEq]
  apply pokeAll_cover _ _ _ _ (zero_shaped _ _)
  intro r c
  simp only [List.mem_map, List.mem_product, List.mem_range, Prod.exists, Prod.mk.injEq]
  constructor
  · rintro ⟨i, j, ⟨hi, hj⟩, rfl, rfl⟩
    exact ⟨hj, hi⟩
  · rintro ⟨hr, hc⟩
    exact ⟨c, r, ⟨hc, hr⟩, rfl, rfl⟩

theorem optTranspose_out [Zero T] (A : Matrix T) (h : A.WF) (bsr bsc : Nat)
    (hr : 1 ≤ bsr) (hc : 1 ≤ bsc) :
    (A.optTranspose bsr bsc).out = .ok (ofFn A.cols A.rows (fun q => A.entry q.2 q.1)) := by
  rw [optTranspose_run A h bsr bsc hr hc]
  simp only [Except.ok.injEq]
  apply pokeAll_cover _ _ _ _ (zero_shaped _ _)
  intro r c
  rw [mem_optStores hr hc]
  exact And.comm

/-! ### Results of the arithmetic operations -/

/-- The loop nest shared by `operator+` and `operator-`, with `f` for the element
operation. -/
theorem zip_run [Zero T] (f : T → T → T) (A B : Matrix T) (hA : A.WF) (hB : B.WF)
    (hr : A.rows = B.rows) (hc : A.cols = B.cols) :
    forLoop A.rows (fun i result =>
      forLoop A.cols (fun j result =>
        (Run.eval (A.raw i j)).andThen fun a =>
        (Run.eval (B.getAt i j)).andThen fun b =>
        result.store i j (f a b)) result) (zero A.rows A.cols)
      = ⟨List.range A.rows ×ˢ List.range A.cols,
          .ok (ofFn A.rows A.cols (fun q => f (A.entry q.1 q.2) (B.entry q.1 q.2)))⟩ := by
  unfold forLoop
  rw [forIdx_product]
  rw [forIdx_store (R := A.rows) (C := A.cols) (fun p : Nat × Nat => p)
    (fun q => f (A.entry q.1 q.2) (B.entry q.1 q.2)) _ _ ?_ ?_ _ (zero_shaped _ _)]
  · rw [List.map_id']
    simp only [Run.mk.injEq, Except.ok.injEq, true_and]
    apply pokeAll_cover _ _ _ _ (zero_shaped _ _)
    intro r c
    simp [List.mem_product]
  · rintro ⟨i, k⟩ hx
    simpa [List.mem_product] using hx
  · rintro ⟨i, k⟩ hx s hs
    simp only [List.mem_product, List.mem_range] at hx
    simp only
    rw [raw_eq_entry A hA hx.1 hx.2, Run.eval_ok_andThen,
      getAt_eq_entry B hB (by omega) (by omega), Run.eval_ok_andThen,
      store_eq_of_wf s hs.1 (by rw [hs.2.1]; exact hx.1) (by rw [hs.2.2]; exact hx.2)]

theorem add_run [Zero T] [Add T] (A B : Matrix T) (hA : A.WF) (hB : B.WF)
    (hr : A.rows = B.rows) (hc : A.cols = B.cols) :
    A.add B = ⟨List.range A.rows ×ˢ List.range A.cols,
      .ok (ofFn A.rows A.cols (fun q => A.entry q.1 q.2 + B.entry q.1 q.2))⟩ := by
  have hn : ¬ (A.rows ≠ B.rows ∨ A.cols ≠ B.cols) := by simp [hr, hc]
  unfold add
  rw [if_neg hn]
  exact zip_run (fun a b => a + b) A B hA hB hr hc

theorem sub_run [Zero T] [Sub T] (A B : Matrix T) (hA : A.WF) (hB : B.WF)
    (hr : A.rows = B.rows) (hc : A.cols = B.cols) :
    A.sub B = ⟨List.range A.rows ×ˢ List.range A.cols,
      .ok (ofFn A.rows A.cols (fun q => A.entry q.1 q.2 - B.entry q.1 q.2))⟩ := by
  have hn : ¬ (A.rows ≠ B.rows ∨ A.cols ≠ B.cols) := by simp [hr, hc]
  unfold sub
  rw [if_neg hn]
  exact zip_run (fun a b => a - b) A B hA hB hr hc

theorem foldl_range_eq_sumUpTo [Zero T] [Add T] (n : Nat) (f : Nat → T) :
    (List.range n).foldl (fun s k => s + f k) 0 = sumUpTo n f := by
  induction n with
  | zero => rfl
  | succ n ih => rw [List.range_succ, List.foldl_append, ih]; rfl

/-- The accumulation loop `for k < A.cols: sum += data[i][k] * other(k, j)`. -/
theorem dot_run [Zero T] [Add T] [Mul T] (A B : Matrix T) (hA : A.WF) (hB : B.WF)
    (hd : A.cols = B.rows) {i j : Nat} (hi : i < A.rows) (hj : j < B.cols) :
    forLoop A.cols (fun k sum =>
      (Run.eval (A.raw i k)).andThen fun a =>
      (Run.eval (B.getAt k j)).andThen fun b =>
      Run.ret (sum + a * b)) (0 : T)
      = Run.ret (sumUpTo A.cols (fun k => A.entry i k * B.entry k j)) := by
  unfold forLoop
  rw [forIdx_pure (fun s k => s + A.entry i k * B.entry k j), foldl_range_eq_sumUpTo]
  intro k hk s
  rw [List.mem_range] at hk
  rw [raw_eq_entry A hA hi hk, Run.eval_ok_andThen,
    getAt_eq_entry B hB (by omega) hj, Run.eval_ok_andThen]

theorem mul_run [Zero T] [Add T] [Mul T] (A B : Matrix T) (hA : A.WF) (hB : B.WF)
    (hd : A.cols = B.rows) :
    A.mul B = ⟨List.range A.rows ×ˢ List.range B.cols,
      .ok (ofFn A.rows B.cols
        (fun q => sumUpTo A.cols (fun k => A.entry q.1 k * B.entry k q.2)))⟩ := by
  have hn : ¬ (A.cols ≠ B.rows) := by simp [hd]
  unfold mul
  rw [if_neg hn]
  unfold forLoop
  rw [forIdx_product]
  rw [forIdx_store (R := A.rows) (C := B.cols) (fun p : Nat × Nat => p)
    (fun q => sumUpTo A.cols (fun k => A.entry q.1 k * B.entry k q.2)) _ _ ?_ ?_ _
    (zero_shaped _ _)]
  · rw [List.map_id']
    simp only [Run.mk.injEq, Except.ok.injEq, true_and]
    apply pokeAll_cover _ _ _ _ (zero_shaped _ _)
    intro r c
    simp [List.mem_product]
  · rintro ⟨i, k⟩ hx
    simpa [List.mem_product] using hx
  · rintro ⟨i, j⟩ hx s hs
    simp only [List.mem_product, List.mem_range] at hx
    simp only
    have := dot_run A B hA hB hd hx.1 hx.2
    unfold forLoop at this
    rw [this, Run.ret_andThen,
      store_eq_of_wf s hs.1 (by rw [hs.2.1]; exact hx.1) (by rw [hs.2.2]; exact hx.2)]

/-- What a run of the scalar product does on a well-formed matrix. -/
theorem smul_run [Zero T] [Mul T] (A : Matrix T) (hA : A.WF) (scalar : T) :
    A.smul scalar = ⟨List.range A.rows ×ˢ List.range A.cols,
      .ok (ofFn A.rows A.cols (fun q => A.entry q.1 q.2 * scalar))⟩ := by
  unfold smul forLoop
  rw [forIdx_product]
  rw [forIdx_store (R := A.rows) (C := A.cols) (fun p : Nat × Nat => p)
    (fun q => A.entry q.1 q.2 * scalar) _ _ ?_ ?_ _ (zero_shaped _ _)]
  · rw [List.map_id']
    simp only [Run.mk.injEq, Except.ok.injEq, true_and]
    apply pokeAll_cover _ _ _ _ (zero_shaped _ _)
    intro r c
    simp [List.mem_product]
  · rintro ⟨i, k⟩ hx
    simpa [List.mem_product] using hx
  · rintro ⟨i, k⟩ hx s hs
    simp only [List.mem_product, List.mem_range] at hx
    simp only
    rw [raw_eq_entry A hA hx.1 hx.2, Run.eval_ok_andThen,
      store_eq_of_wf s hs.1 (by rw [hs.2.1]; exact hx.1) (by rw [hs.2.2]; exact hx.2)]

/-- What a run of `frobeniusNorm` does on a well-formed matrix. -/
theorem frobeniusNorm_run [Zero T] [Add T] [Mul T] (sqrtT : T → T) (A : Matrix T)
    (hA : A.WF) :
    A.frobeniusNorm sqrtT = ⟨[(0, 0)],
      .ok (ofFn 1 1 (fun _ =>
        sqrtT (rowMajorSum A.rows A.cols (fun i j => A.entry i j * A.entry i j))))⟩ := by
  unfold frobeniusNorm forLoop
  rw [forIdx_product, forIdx_pure (fun s p => s + A.entry p.1 p.2 * A.entry p.1 p.2),
    Run.ret_andThen, store_eq_of_wf _ (zero_shaped 1 1).1 Nat.one_pos Nat.one_pos]
  · rfl
  · rintro ⟨i, j⟩ hx s
    simp only [List.mem_product, List.mem_range] at hx
    simp only
    rw [raw_eq_entry A hA hx.1 hx.2, Run.eval_ok_andThen, Run.eval_ok_andThen]

theorem size_of_wf (m : Matrix T) (h : m.WF) : m.size = m.rows * m.cols := by
  obtain ⟨hlen, hrow⟩ := h
  unfold size
  rw [← hlen]
  generalize m.data = d at hrow
  induction d with
  | nil => simp
  | cons x d ih =>
    simp only [List.map_cons, List.sum_cons, List.length_cons]
    rw [ih (fun v hv => hrow v (List.mem_cons_of_mem _ hv)), hrow x (List.mem_cons_self _ _)]
    ring

theorem mul_out [Zero T] [Add T] [Mul T] (A B : Matrix T) (hA : A.WF) (hB : B.WF)
    (hd : A.cols = B.rows) : (A.mul B).out = .ok (A.mulResult B) := by
  rw [mul_run A B hA hB hd]
  rfl

theorem mulResult_shaped [Zero T] [Add T] [Mul T] (A B : Matrix T) :
    (A.mulResult B).Shaped A.rows B.cols := ofFn_shaped _ _ _

theorem entry_mulResult [Zero T] [Add T] [Mul T] (A B : Matrix T) {i j : Nat}
    (hi : i < A.rows) (hj : j < B.cols) :
    (A.mulResult B).entry i j = sumUpTo A.cols (fun k => A.entry i k * B.entry k j) :=
  entry_ofFn _ hi hj

theorem entry_zero [Zero T] (R C r c : Nat) : (zero R C : Matrix T).entry r c = 0 := by
  by_cases h : r < R ∧ c < C
  · have := cell_eq_entry (zero R C : Matrix T) (zero_shaped R C).1 (r := r) (c := c) h.1 h.2
    have h2 : (zero R C : Matrix T).cell r c = some 0 := by
      simp [cell, zero, List.getElem?_replicate, h.1, h.2]
    rw [h2] at this
    exact (Option.some.inj this).symm
  · have : (zero R C : Matrix T).cell r c = none :=
      cell_eq_none_of_wf _ (zero_shaped R C).1 (by
        show R ≤ r ∨ C ≤ c
        omega)
    simp [entry, this]

theorem zero_eq_ofFn [Zero T] (R C : Nat) : (zero R C : Matrix T) = ofFn R C (fun _ => 0) := by
  apply eq_of_cells _ _ (zero_shaped R C) (ofFn_shaped _ _ _)
  intro r c hr hc
  rw [cell_ofFn _ hr hc, cell_eq_entry _ (zero_shaped R C).1 hr hc, entry_zero]

theorem wf_and_size (m : Matrix T) (h : m.WF) : m.WF ∧ m.size = m.rows * m.cols :=
  ⟨h, size_of_wf m h⟩

theorem add_out_wf [Zero T] [Add T] (A B M : Matrix T) (hA : A.WF) (hB : B.WF)
    (h : (A.add B).out = .ok M) : M.WF := by
  by_cases hd : A.rows ≠ B.rows ∨ A.cols ≠ B.cols
  · unfold add at h
    rw [if_pos hd] at h
    cases h
  · rw [add_run A B hA hB (by tauto) (by tauto)] at h
    cases h
    exact (ofFn_shaped _ _ _).1

theorem sub_out_wf [Zero T] [Sub T] (A B M : Matrix T) (hA : A.WF) (hB : B.WF)
    (h : (A.sub B).out = .ok M) : M.WF := by
  by_cases hd : A.rows ≠ B.rows ∨ A.cols ≠ B.cols
  · unfold sub at h
    rw [if_pos hd] at h
    cases h
  · rw [sub_run A B hA hB (by tauto) (by tauto)] at h
    cases h
    exact (ofFn_shaped _ _ _).1

theorem mul_out_wf [Zero T] [Add T] [Mul T] (A B M : Matrix T) (hA : A.WF) (hB : B.WF)
    (h : (A.mul B).out = .ok M) : M.WF := by
  by_cases hd : A.cols ≠ B.rows
  · unfold mul at h
    rw [if_pos hd] at h
    cases h
  · rw [mul_run A B hA hB (by tauto)] at h
    cases h
    exact (ofFn_shaped _ _ _).1

theorem store_out_wf (m M : Matrix T) (hm : m.WF) (row col : Nat) (v : T)
    (h : (m.store row col v).out = .ok M) : M.WF ∧ M.rows = m.rows ∧ M.cols = m.cols := by
  unfold store at h
  cases hq : m.refAt row col with
  | error e =>
    rw [hq] at h
    cases h
  | ok p =>
    rw [hq] at h
    cases h
    exact ⟨poke_wf m hm p v, rfl, rfl⟩

theorem assign_wf (m : Matrix T) (hm : m.WF) (row col : Nat) (v : T) :
    (m.assign row col v).1.WF ∧ (m.assign row col v).1.rows = m.rows
      ∧ (m.assign row col v).1.cols = m.cols := by
  unfold assign
  cases m.refAt row col with
  | error e => exact ⟨hm, rfl, rfl⟩
  | ok p => exact ⟨poke_wf m hm p v, rfl, rfl⟩

/-! ### Sums over the exact integers -/

theorem foldl_add_eq_sum {ι : Type} (f : ι → Int) (l : List ι) (s0 : Int) :
    l.foldl (fun s p => s + f p) s0 = s0 + (l.map f).sum := by
  induction l generalizing s0 with
  | nil => simp
  | cons x l ih =>
    simp only [List.foldl_cons, List.map_cons, List.sum_cons]
    rw [ih]
    ring

theorem rowMajorSum_eq_sum (R C : Nat) (f : Nat → Nat → Int) :
    rowMajorSum R C f = ((List.range R ×ˢ List.range C).map (fun p => f p.1 p.2)).sum := by
  unfold rowMajorSum
  rw [foldl_add_eq_sum]
  simp

theorem sum_squares_nonneg {ι : Type} (f : ι → Int) (l : List ι) :
    0 ≤ (l.map (fun x => f x * f x)).sum := by
  apply List.sum_nonneg
  intro y hy
  obtain ⟨x, _, rfl⟩ := List.mem_map.mp hy
  exact mul_self_nonneg _

theorem sum_squares_eq_zero_iff {ι : Type} (f : ι → Int) (l : List ι) :
    (l.map (fun x => f x * f x)).sum = 0 ↔ ∀ x ∈ l, f x = 0 := by
  induction l with
  | nil => simp
  | cons x l ih =>
    simp only [List.map_cons, List.sum_cons, List.mem_cons, forall_eq_or_imp]
    have h1 := mul_self_nonneg (f x)
    have h2 := sum_squares_nonneg f l
    constructor
    · intro h
      have h3 : f x * f x = 0 := by omega
      have h4 : (l.map (fun x => f x * f x)).sum = 0 := by omega
      exact ⟨mul_self_eq_zero.mp h3, ih.mp h4⟩
    · rintro ⟨h3, h4⟩
      rw [ih.mpr h4, h3]
      rfl

/-- The row-major sum of squares of an integer matrix is not negative. -/
theorem rowMajorSum_squares_nonneg (R C : Nat) (f : Nat → Nat → Int) :
    0 ≤ rowMajorSum R C (fun i j => f i j * f i j) := by
  rw [rowMajorSum_eq_sum]
  exact sum_squares_nonneg (fun p : Nat × Nat => f p.1 p.2) _

/-- The row-major sum of squares vanishes exactly when every summand does. -/
theorem rowMajorSum_squares_eq_zero_iff (R C : Nat) (f : Nat → Nat → Int) :
    rowMajorSum R C (fun i j => f i j * f i j) = 0 ↔ ∀ i j, i < R → j < C → f i j = 0 := by
  rw [rowMajorSum_eq_sum, sum_squares_eq_zero_iff (fun p : Nat × Nat => f p.1 p.2)]
  constructor
  · intro h i j hi hj
    exact h (i, j) (by simp [List.mem_product, hi, hj])
  · rintro h ⟨i, j⟩ hx
    simp only [List.mem_product, List.mem_range] at hx
    exact h i j hx.1 hx.2

end Matrix

/-- On a non-negative integer, `intSqrt` is the integer part of the square root. -/
theorem intSqrt_spec (s : Int) (hs : 0 ≤ s) :
    0 ≤ intSqrt s ∧ intSqrt s * intSqrt s ≤ s ∧ s < (intSqrt s + 1) * (intSqrt s + 1) := by
  unfold intSqrt
  have h1 := Nat.sqrt_le s.toNat
  have h2 := Nat.lt_succ_sqrt s.toNat
  have h3 : ((s.toNat : Nat) : Int) = s := Int.toNat_of_nonneg hs
  refine ⟨Int.natCast_nonneg _, ?_, ?_⟩
  · have : ((s.toNat.sqrt * s.toNat.sqrt : Nat) : Int) ≤ (s.toNat : Int) := by exact_mod_cast h1
    rw [h3] at this
    simpa using this
  · have : ((s.toNat : Nat) : Int) < ((s.toNat.sqrt.succ * s.toNat.sqrt.succ : Nat) : Int) := by
      exact_mod_cast h2
    rw [h3] at this
    simpa using this

theorem intSqrt_eq_zero_iff (s : Int) (hs : 0 ≤ s) : intSqrt s = 0 ↔ s = 0 := by
  unfold intSqrt
  have h3 : ((s.toNat : Nat) : Int) = s := Int.toNat_of_nonneg hs
  constructor
  · intro h
    have : s.toNat.sqrt = 0 := by exact_mod_cast h
    rw [Nat.sqrt_eq_zero] at this
    omega
  · intro h
    subst h
    simp

namespace Matrix

variable {T : Type}

/-! ### Products over the exact integers -/

theorem sumUpTo_congr [Zero T] [Add T] (n : Nat) (f g : Nat → T)
    (h : ∀ k, k < n → f k = g k) : sumUpTo n f = sumUpTo n g := by
  induction n with
  | zero => rfl
  | succ n ih =>
    simp only [sumUpTo]
    rw [ih (fun k hk => h k (by omega)), h n (by omega)]

theorem sumUpTo_eq_sum (n : Nat) (f : Nat → Int) :
    sumUpTo n f = ∑ k ∈ Finset.range n, f k := by
  induction n with
  | zero => rfl
  | succ n ih => rw [Finset.sum_range_succ, ← ih]; rfl

/-- Exchange of the two accumulation loops in a product of three integer matrices. -/
theorem sumUpTo_assoc (n p : Nat) (a : Nat → Int) (b : Nat → Nat → Int) (c : Nat → Int) :
    sumUpTo p (fun l => sumUpTo n (fun k => a k * b k l) * c l)
      = sumUpTo n (fun k => a k * sumUpTo p (fun l => b k l * c l)) := by
  simp only [sumUpTo_eq_sum, Finset.sum_mul, Finset.mul_sum]
  rw [Finset.sum_comm]
  apply Finset.sum_congr rfl
  intro k _
  apply Finset.sum_congr rfl
  intro l _
  ring

/-- The products `(A * B) * C` and `A * (B * C)` of integer matrices are equal. -/
theorem mulResult_assoc (A B C : Matrix Int) (hab : A.cols = B.rows) :
    (A.mulResult B).mulResult C = A.mulResult (B.mulResult C) := by
  show ofFn A.rows C.cols _ = ofFn A.rows C.cols _
  apply ofFn_congr
  intro i j hi hj
  show sumUpTo B.cols (fun l => (A.mulResult B).entry i l * C.entry l j)
    = sumUpTo A.cols (fun k => A.entry i k * (B.mulResult C).entry k j)
  rw [sumUpTo_congr B.cols _ (fun l => sumUpTo A.cols (fun k => A.entry i k * B.entry k l)
      * C.entry l j) (fun l hl => by rw [entry_mulResult A B hi hl]),
    sumUpTo_congr A.cols (fun k => A.entry i k * (B.mulResult C).entry k j)
      (fun k => A.entry i k * sumUpTo B.cols (fun l => B.entry k l * C.entry l j))
      (fun k hk => by simp only [entry_mulResult B C (show k < B.rows by omega) hj])]
  exact sumUpTo_assoc A.cols B.cols (fun k => A.entry i k) (fun k l => B.entry k l)
    (fun l => C.entry l j)

/-- The matrix with `A.cols` rows and `A.rows` columns returned by both transposes. -/
theorem transposed_shaped [Zero T] (A : Matrix T) :
    (ofFn A.cols A.rows (fun q => A.entry q.2 q.1)).Shaped A.cols A.rows := ofFn_shaped _ _ _

/-- The transpose of a product of integer matrices is the product of the transposes
in reverse order. -/
theorem transposed_mulResult (A B : Matrix Int) (hab : A.cols = B.rows) :
    ofFn (A.mulResult B).cols (A.mulResult B).rows (fun q => (A.mulResult B).entry q.2 q.1)
      = (ofFn B.cols B.rows (fun q => B.entry q.2 q.1)).mulResult
          (ofFn A.cols A.rows (fun q => A.entry q.2 q.1)) := by
  show ofFn B.cols A.rows _ = ofFn B.cols A.rows _
  apply ofFn_congr
  intro j i hj hi
  show (A.mulResult B).entry i j = sumUpTo B.rows (fun k =>
    (ofFn B.cols B.rows (fun q => B.entry q.2 q.1)).entry j k
      * (ofFn A.cols A.rows (fun q => A.entry q.2 q.1)).entry k i)
  rw [entry_mulResult A B hi hj, hab]
  apply sumUpTo_congr
  intro k hk
  rw [entry_ofFn _ hj hk, entry_ofFn _ (by omega) hi]
  exact mul_comm _ _

/-- Reads of a matrix after one assignment inside its shape. -/
theorem getAt_poke (m : Matrix T) (h : m.WF) {row col : Nat} (hr : row < m.rows)
    (hc : col < m.cols) (v : T) (i j : Nat) :
    (m.poke (row, col) v).getAt i j
      = if (i, j) = (row, col) then .ok v else m.getAt i j := by
  unfold getAt raw
  rw [poke_rows, poke_cols, cell_poke m h (row, col) hr hc v i j]
  by_cases hij : (i, j) = (row, col)
  · have h1 : i = row := congrArg Prod.fst hij
    have h2 : j = col := congrArg Prod.snd hij
    have hn : ¬ (i ≥ m.rows ∨ j ≥ m.cols) := by omega
    simp [hij, hn]
  · simp [hij]

end Matrix

open Matrix

/-! ## The element type `int` -/

theorem wrap32_of_range (x : Int) (h0 : 0 ≤ x) (h1 : x ≤ 2147483647) : wrap32 x = x := by
  unfold wrap32
  omega

theorem I32.add_val (a b : I32) : (a + b).val = wrap32 (a.val + b.val) := rfl

theorem I32.mul_val (a b : I32) : (a * b).val = wrap32 (a.val * b.val) := rfl

/-- As long as the exact running sum of squares stays within `INT_MAX`, the
accumulation loop of `frobeniusNorm` on `int` computes it without wrapping. -/
theorem foldl_i32_squares {ι : Type} (f : ι → I32) (l : List ι) (acc : I32)
    (h0 : 0 ≤ acc.val)
    (hb : acc.val + (l.map (fun x => (f x).val * (f x).val)).sum ≤ 2147483647) :
    (l.foldl (fun s x => s + f x * f x) acc).val
      = acc.val + (l.map (fun x => (f x).val * (f x).val)).sum := by
  induction l generalizing acc with
  | nil => simp
  | cons x l ih =>
    simp only [List.map_cons, List.sum_cons] at hb
    have hsq : 0 ≤ (f x).val * (f x).val := mul_self_nonneg _
    have hrest : 0 ≤ (l.map (fun x => (f x).val * (f x).val)).sum :=
      sum_squares_nonneg (fun x => (f x).val) l
    have h1 : (f x * f x).val = (f x).val * (f x).val := by
      rw [I32.mul_val, wrap32_of_range _ hsq (by omega)]
    have h2 : (acc + f x * f x).val = acc.val + (f x).val * (f x).val := by
      rw [I32.add_val, h1, wrap32_of_range _ (by omega) (by omega)]
    simp only [List.foldl_cons, List.map_cons, List.sum_cons]
    rw [ih (acc + f x * f x) (by rw [h2]; omega) (by rw [h2]; omega), h2]
    omega

/-- The sum of squares computed on `int` is the exact one when that is at most
`INT_MAX`. -/
theorem rowMajorSum_i32_val (A : Matrix I32) (hb : exactSumSquares A ≤ 2147483647) :
    (rowMajorSum A.rows A.cols (fun i j => A.entry i j * A.entry i j)).val
      = exactSumSquares A := by
  unfold exactSumSquares at *
  rw [rowMajorSum_eq_sum] at *
  unfold rowMajorSum
  have h := foldl_i32_squares (fun p : Nat × Nat => A.entry p.1 p.2)
    (List.range A.rows ×ˢ List.range A.cols) 0 (le_refl _) (by
      show (0 : Int) + _ ≤ _
      rw [Int.zero_add]
      exact hb)
  rw [h]
  show (0 : Int) + _ = _
  rw [Int.zero_add]

theorem exactSumSquares_nonneg (A : Matrix I32) : 0 ≤ exactSumSquares A :=
  rowMajorSum_squares_nonneg A.rows A.cols (fun i j => (A.entry i j).val)

/-- On a non-negative `int`, `I32.sqrt` is the integer part of the square root. -/
theorem I32.sqrt_val (s : I32) (hs : 0 ≤ s.val) : (I32.sqrt s).val = intSqrt s.val := by
  unfold I32.sqrt intSqrt
  rw [if_pos hs]

/-! ## Claims -/

/-- C1: for every (well-formed) matrix `A` and all block sizes `bsize_row >= 1`,
`bsize_col >= 1`, `optTranspose(A, bsize_row, bsize_col)` and `transpose(A)` both
return, and return the same matrix: `A.cols` rows, `A.rows` columns and the same
element at every position. -/
theorem optTranspose_eq_transpose {T : Type} [Zero T] (A : Matrix T) (hA : A.WF)
    (bsize_row bsize_col : Nat) (hr : 1 ≤ bsize_row) (hc : 1 ≤ bsize_col) :
    ∃ M : Matrix T, (A.optTranspose bsize_row bsize_col).out = .ok M
      ∧ A.transpose.out = .ok M ∧ M.rows = A.cols ∧ M.cols = A.rows
      ∧ ∀ r c v, A.getAt r c = .ok v → M.getAt c r = .ok v :=
  ⟨ofFn A.cols A.rows (fun q => A.entry q.2 q.1),
    optTranspose_out A hA bsize_row bsize_col hr hc, transpose_out A hA, rfl, rfl, by
      intro r c v hv
      by_cases hrc : r < A.rows ∧ c < A.cols
      · rw [getAt_eq_entry A hA hrc.1 hrc.2] at hv
        rw [getAt_eq_entry _ (ofFn_shaped _ _ _).1 hrc.2 hrc.1, entry_ofFn _ hrc.2 hrc.1]
        exact hv
      · have : r ≥ A.rows ∨ c ≥ A.cols := by omega
        simp [getAt, this] at hv⟩

/-- Witness for C1: `[[1,2,3],[4,5,6]]` with blocks 2 x 2 (which do not divide the 3
columns) gives `[[1,4],[2,5],[3,6]]`, as does `transpose`, and so do blocks 1 x 3 (which
divide both dimensions) and blocks 5 x 7 (which exceed both). -/
theorem optTranspose_eq_transpose_witness :
    exA.WF ∧ (exA.optTranspose 2 2).out = .ok exAt ∧ exA.transpose.out = .ok exAt
      ∧ (exA.optTranspose 1 3).out = .ok exAt ∧ (exA.optTranspose 5 7).out = .ok exAt
      ∧ ∃ M : Matrix Int, (exA.optTranspose 2 2).out = .ok M
        ∧ exA.transpose.out = .ok M ∧ M.rows = exA.cols ∧ M.cols = exA.rows
        ∧ ∀ r c v, exA.getAt r c = .ok v → M.getAt c r = .ok v :=
  ⟨by decide, rfl, rfl, rfl, rfl,
    optTranspose_eq_transpose exA (by decide) 2 2 (by decide) (by decide)⟩

/-- Counterexample to C2 as stated: on `[[1,2,3],[4,5,6]]` with `bsize_row = 0` the run
of `optTranspose` ends in the undefined unsigned division by zero; it does not end in
an exception thrown by the code, so no InvalidBlockSize error reaches the caller.  The
same holds with `bsize_col = 0`. -/
theorem optTranspose_zero_block_not_thrown :
    ¬ ((∃ e, (exA.optTranspose 0 2).out = .error e ∧ e.thrown = true)
        ∨ (∃ e, (exA.optTranspose 2 0).out = .error e ∧ e.thrown = true)) := by
  have h1 : (exA.optTranspose 0 2).out = .error .division_by_zero := rfl
  have h2 : (exA.optTranspose 2 0).out = .error .division_by_zero := rfl
  rw [h1, h2]
  rintro (⟨e, he, ht⟩ | ⟨e, he, ht⟩)
  · cases he
    cases ht
  · cases he
    cases ht

/-- C2, amended: `optTranspose` called with `bsize_row = 0` or `bsize_col = 0` raises no
InvalidBlockSize error.  Its first statements are `cols % bsize_col` and
`rows % bsize_row`, so the run ends in an unsigned division by zero (undefined
behaviour, not a thrown error) before `result` is allocated, before any loop is
entered and before any element is copied: the list of assigned cells is empty. -/
theorem optTranspose_zero_block {T : Type} [Zero T] (A : Matrix T)
    (bsize_row bsize_col : Nat) (h : bsize_row = 0 ∨ bsize_col = 0) :
    A.optTranspose bsize_row bsize_col = ⟨[], .error .division_by_zero⟩
      ∧ Failure.division_by_zero.thrown = false := by
  refine ⟨?_, rfl⟩
  unfold optTranspose
  by_cases hc : bsize_col = 0
  · simp [umod, hc, Run.eval_error_andThen, Run.fail]
  · have hr : bsize_row = 0 := by tauto
    simp [umod, hc, hr, Run.eval_ok_andThen, Run.eval_error_andThen, Run.fail]

/-- Witness for the amended C2 on `[[1,2,3],[4,5,6]]` with block sizes 0 x 2. -/
theorem optTranspose_zero_block_witness :
    ((0 : Nat) = 0 ∨ (2 : Nat) = 0)
      ∧ exA.optTranspose 0 2 = ⟨[], .error .division_by_zero⟩
      ∧ Failure.division_by_zero.thrown = false :=
  ⟨Or.inl rfl, optTranspose_zero_block exA 0 2 (Or.inl rfl)⟩

/-- C3: for every (well-formed) `rows` x `cols` matrix and all block sizes
`bsize_row >= 1`, `bsize_col >= 1`, the cells `(c, r)` of `result` assigned by the four
loop nests of `optTranspose`, taken together, are pairwise distinct (no cell is
assigned twice) and are exactly the cells with `r < rows` and `c < cols`, so there are
`rows * cols` assignments; the run returns, and the assignment to `(c, r)` copied the
source element at `(r, c)`. -/
theorem optTranspose_partition {T : Type} [Zero T] (A : Matrix T) (hA : A.WF)
    (bsize_row bsize_col : Nat) (hr : 1 ≤ bsize_row) (hc : 1 ≤ bsize_col) :
    (A.optTranspose bsize_row bsize_col).stores.Nodup
      ∧ (∀ r c, (c, r) ∈ (A.optTranspose bsize_row bsize_col).stores
          ↔ r < A.rows ∧ c < A.cols)
      ∧ (A.optTranspose bsize_row bsize_col).stores.length = A.rows * A.cols
      ∧ ∃ M : Matrix T, (A.optTranspose bsize_row bsize_col).out = .ok M
          ∧ ∀ r c, (c, r) ∈ (A.optTranspose bsize_row bsize_col).stores →
              ∃ v, A.cell r c = some v ∧ M.cell c r = some v := by
  have hmem : ∀ r c, (c, r) ∈ (A.optTranspose bsize_row bsize_col).stores
      ↔ r < A.rows ∧ c < A.cols := by
    intro r c
    rw [optTranspose_run A hA bsize_row bsize_col hr hc]
    exact mem_optStores hr hc c r
  have hnd : (A.optTranspose bsize_row bsize_col).stores.Nodup := by
    rw [optTranspose_run A hA bsize_row bsize_col hr hc]
    exact nodup_optStores hr hc
  refine ⟨hnd, hmem, ?_, _, optTranspose_out A hA bsize_row bsize_col hr hc, ?_⟩
  · have hperm : (A.optTranspose bsize_row bsize_col).stores.Perm
        (List.range A.cols ×ˢ List.range A.rows) := by
      rw [List.perm_ext_iff_of_nodup hnd ((List.nodup_range _).product (List.nodup_range _))]
      rintro ⟨c, r⟩
      rw [hmem r c, List.mem_product, List.mem_range, List.mem_range]
      exact And.comm
    rw [hperm.length_eq, List.length_product, List.length_range, List.length_range,
      Nat.mul_comm]
  · intro r c hrc
    have h := (hmem r c).mp hrc
    exact ⟨A.entry r c, cell_eq_entry A hA h.1 h.2, cell_ofFn _ h.2 h.1⟩

/-- Witness for C3: the 2 x 3 example with blocks 2 x 2, whose six assignments are
listed in order (main grid, then the right column-remainder strip). -/
theorem optTranspose_partition_witness :
    exA.WF ∧ (exA.optTranspose 2 2).stores = [(0, 0), (1, 0), (0, 1), (1, 1), (2, 0), (2, 1)]
      ∧ (exA.optTranspose 2 2).stores.Nodup
      ∧ (∀ r c, (c, r) ∈ (exA.optTranspose 2 2).stores ↔ r < exA.rows ∧ c < exA.cols) :=
  have h := optTranspose_partition exA (by decide) 2 2 (by decide) (by decide)
  ⟨by decide, rfl, h.1, h.2.1⟩

/-- C9: for every (well-formed) matrix `A`, `transpose(A)` returns (it does not fail),
its result has `A.cols` rows and `A.rows` columns, and its element `(j, i)` is
`A(i, j)` for every `i < A.rows` and `j < A.cols`. -/
theorem transpose_spec {T : Type} [Zero T] (A : Matrix T) (hA : A.WF) :
    ∃ M : Matrix T, A.transpose.out = .ok M ∧ M.rows = A.cols ∧ M.cols = A.rows
      ∧ ∀ i j, i < A.rows → j < A.cols →
          ∃ v, A.getAt i j = .ok v ∧ M.getAt j i = .ok v :=
  ⟨ofFn A.cols A.rows (fun q => A.entry q.2 q.1), transpose_out A hA, rfl, rfl, by
    intro i j hi hj
    refine ⟨A.entry i j, getAt_eq_entry A hA hi hj, ?_⟩
    rw [getAt_eq_entry _ (ofFn_shaped _ _ _).1 hj hi, entry_ofFn _ hj hi]⟩

/-- Witness for C9: `transpose([[1,2,3],[4,5,6]]) = [[1,4],[2,5],[3,6]]`. -/
theorem transpose_spec_witness :
    exA.WF ∧ exA.transpose.out = .ok exAt
      ∧ ∃ M : Matrix Int, exA.transpose.out = .ok M ∧ M.rows = exA.cols ∧ M.cols = exA.rows
        ∧ ∀ i j, i < exA.rows → j < exA.cols →
            ∃ v, exA.getAt i j = .ok v ∧ M.getAt j i = .ok v :=
  ⟨by decide, rfl, transpose_spec exA (by decide)⟩

/-- C10: for every (well-formed) matrix `A`, also one with zero rows or zero columns,
`transpose(A)` returns a matrix whose transpose is `A` itself: same `rows`, same `cols`
and same storage, hence the same element at every position. -/
theorem transpose_involution {T : Type} [Zero T] (A : Matrix T) (hA : A.WF) :
    ∃ M : Matrix T, A.transpose.out = .ok M ∧ M.transpose.out = .ok A := by
  refine ⟨_, transpose_out A hA, ?_⟩
  rw [transpose_out _ (ofFn_shaped _ _ _).1]
  simp only [Except.ok.injEq]
  show ofFn A.rows A.cols _ = A
  rw [ofFn_congr _ (fun q => A.entry q.1 q.2), ofFn_entry A hA]
  intro r c hr hc
  exact entry_ofFn _ hc hr

/-- Witness for C10: the 2 x 3 example, and the empty matrices with 0 x 3 and 3 x 0
cells. -/
theorem transpose_involution_witness :
    exA.WF
      ∧ (∃ M : Matrix Int, exA.transpose.out = .ok M ∧ M.transpose.out = .ok exA)
      ∧ (∃ M : Matrix Int, (zero 0 3 : Matrix Int).transpose.out = .ok M
          ∧ M.transpose.out = .ok (zero 0 3))
      ∧ (∃ M : Matrix Int, (zero 3 0 : Matrix Int).transpose.out = .ok M
          ∧ M.transpose.out = .ok (zero 3 0)) :=
  ⟨by decide, transpose_involution exA (by decide),
    transpose_involution (zero 0 3) (zero_shaped 0 3).1,
    transpose_involution (zero 3 0) (zero_shaped 3 0).1⟩

/-- C4: for every `rows` x `cols` matrix and every `(row, col)`, the read overload
and the write overload of `operator()` (and so the assignment `m(row, col) = v`) fail
with `out_of_range` if and only if `row >= rows` or `col >= cols`; in particular they
fail at `(rows, 0)` and at `(0, cols)`.  Otherwise, on a well-formed matrix, the read
overload yields the element stored at `(row, col)` and the write overload yields the
reference to that same element. -/
theorem access_out_of_range_iff {T : Type} (m : Matrix T) (row col : Nat) :
    (m.getAt row col = .error .out_of_range ↔ (row ≥ m.rows ∨ col ≥ m.cols))
      ∧ (m.refAt row col = .error .out_of_range ↔ (row ≥ m.rows ∨ col ≥ m.cols))
      ∧ (∀ v, (m.store row col v).out = .error .out_of_range
          ↔ (row ≥ m.rows ∨ col ≥ m.cols))
      ∧ (m.getAt m.rows 0 = .error .out_of_range ∧ m.getAt 0 m.cols = .error .out_of_range
          ∧ m.refAt m.rows 0 = .error .out_of_range
          ∧ m.refAt 0 m.cols = .error .out_of_range)
      ∧ (m.WF → row < m.rows → col < m.cols →
          ∃ v, m.cell row col = some v ∧ m.getAt row col = .ok v
            ∧ m.refAt row col = .ok (row, col) ∧ m.peek (row, col) = .ok v) := by
  have hget : m.getAt row col = .error .out_of_range ↔ (row ≥ m.rows ∨ col ≥ m.cols) := by
    unfold getAt raw
    by_cases h : row ≥ m.rows ∨ col ≥ m.cols
    · simp [h]
    · rw [if_neg h]
      cases m.cell row col <;> simp [h]
  have href : m.refAt row col = .error .out_of_range ↔ (row ≥ m.rows ∨ col ≥ m.cols) := by
    unfold refAt
    by_cases h : row ≥ m.rows ∨ col ≥ m.cols
    · simp [h]
    · rw [if_neg h]
      cases m.cell row col <;> simp [h]
  refine ⟨hget, href, ?_, ⟨?_, ?_, ?_, ?_⟩, ?_⟩
  · intro v
    rw [← href]
    unfold store
    cases hq : m.refAt row col with
    | error e => simp [Run.fail]
    | ok p => simp
  · simp [getAt]
  · simp [getAt]
  · simp [refAt]
  · simp [refAt]
  · intro hwf hr hc
    obtain ⟨v, hv⟩ := cell_eq_some_of_wf m hwf hr hc
    have hn : ¬ (row ≥ m.rows ∨ col ≥ m.cols) := by omega
    exact ⟨v, hv, by simp [getAt, raw, hn, hv], by simp [refAt, hn, hv], by simp [peek, raw, hv]⟩

/-- Witness for C4 on `[[1,2,3],[4,5,6]]`: position `(1, 2)` holds 6; positions
`(2, 0)` and `(0, 3)` are rejected. -/
theorem access_out_of_range_iff_witness :
    exA.getAt 1 2 = .ok 6 ∧ exA.getAt 2 0 = .error .out_of_range
      ∧ exA.getAt 0 3 = .error .out_of_range
      ∧ ∃ v, exA.cell 1 2 = some v ∧ exA.getAt 1 2 = .ok v
          ∧ exA.refAt 1 2 = .ok (1, 2) ∧ exA.peek (1, 2) = .ok v :=
  ⟨rfl, rfl, rfl,
    (access_out_of_range_iff exA 1 2).2.2.2.2 (by decide) (by decide) (by decide)⟩

/-- C5: for all (well-formed) `A` and `B` with `A.cols = B.rows`, `operator*(A, B)`
returns a matrix with `A.rows` rows and `B.cols` columns whose element `(i, j)` is the
sum of the `A(i,k) * B(k,j)` for `k = 0 .. A.cols-1`, accumulated from `T()` in
increasing `k`; here `A.entry i k` is the value `A(i, k)` and `B.entry k j` the value
`B(k, j)`. -/
theorem mul_spec {T : Type} [Zero T] [Add T] [Mul T] (A B : Matrix T) (hA : A.WF)
    (hB : B.WF) (hd : A.cols = B.rows) :
    ∃ M : Matrix T, (A.mul B).out = .ok M ∧ M.rows = A.rows ∧ M.cols = B.cols
      ∧ (∀ i j, i < A.rows → j < B.cols →
          M.getAt i j = .ok (sumUpTo A.cols (fun k => A.entry i k * B.entry k j)))
      ∧ (∀ i k, i < A.rows → k < A.cols → A.getAt i k = .ok (A.entry i k))
      ∧ (∀ k j, k < B.rows → j < B.cols → B.getAt k j = .ok (B.entry k j)) := by
  refine ⟨ofFn A.rows B.cols (fun q => sumUpTo A.cols (fun k => A.entry q.1 k * B.entry k q.2)),
    by rw [mul_run A B hA hB hd], rfl, rfl, ?_, ?_, ?_⟩
  · intro i j hi hj
    rw [getAt_eq_entry _ (ofFn_shaped _ _ _).1 hi hj, entry_ofFn _ hi hj]
  · intro i k hi hk
    exact getAt_eq_entry A hA hi hk
  · intro k j hk hj
    exact getAt_eq_entry B hB hk hj

/-- Witness for C5: `[[1,2,3],[4,5,6]]` times `[[7,8],[9,10],[11,12]]` is
`[[58,64],[139,154]]`. -/
theorem mul_spec_witness :
    exA.WF ∧ exB.WF ∧ exA.cols = exB.rows ∧ (exA.mul exB).out = .ok exC
      ∧ ∃ M : Matrix Int, (exA.mul exB).out = .ok M ∧ M.rows = exA.rows ∧ M.cols = exB.cols
        ∧ (∀ i j, i < exA.rows → j < exB.cols →
            M.getAt i j = .ok (sumUpTo exA.cols (fun k => exA.entry i k * exB.entry k j)))
        ∧ (∀ i k, i < exA.rows → k < exA.cols → exA.getAt i k = .ok (exA.entry i k))
        ∧ (∀ k j, k < exB.rows → j < exB.cols → exB.getAt k j = .ok (exB.entry k j)) :=
  ⟨by decide, by decide, rfl, rfl, mul_spec exA exB (by decide) (by decide) rfl⟩

/-- C6: for all (well-formed) `A` and `B`, `operator+(A, B)` and `operator-(A, B)` fail
with `invalid_argument` (DimensionMismatch) if and only if `A.rows != B.rows` or
`A.cols != B.cols`; whenever they fail, no element of `result` has been assigned. -/
theorem add_sub_mismatch_iff {T : Type} [Zero T] [Add T] [Sub T] (A B : Matrix T)
    (hA : A.WF) (hB : B.WF) :
    ((A.add B).out = .error .invalid_argument ↔ (A.rows ≠ B.rows ∨ A.cols ≠ B.cols))
      ∧ ((A.sub B).out = .error .invalid_argument ↔ (A.rows ≠ B.rows ∨ A.cols ≠ B.cols))
      ∧ (∀ e, (A.add B).out = .error e → (A.add B).stores = [])
      ∧ (∀ e, (A.sub B).out = .error e → (A.sub B).stores = []) := by
  by_cases h : A.rows ≠ B.rows ∨ A.cols ≠ B.cols
  · have h1 : A.add B = Run.fail .invalid_argument := by unfold add; rw [if_pos h]
    have h2 : A.sub B = Run.fail .invalid_argument := by unfold sub; rw [if_pos h]
    simp [h1, h2, h, Run.fail]
  · have hr : A.rows = B.rows := by tauto
    have hc : A.cols = B.cols := by tauto
    rw [add_run A B hA hB hr hc, sub_run A B hA hB hr hc]
    simp [hr, hc]

/-- Witness for C6: adding (or subtracting) the 2 x 3 and the 3 x 2 example fails with
`invalid_argument` before any assignment. -/
theorem add_sub_mismatch_iff_witness :
    exA.WF ∧ exB.WF ∧ exA.add exB = ⟨[], .error .invalid_argument⟩
      ∧ exA.sub exB = ⟨[], .error .invalid_argument⟩
      ∧ ((exA.add exB).out = .error .invalid_argument
          ↔ (exA.rows ≠ exB.rows ∨ exA.cols ≠ exB.cols)) :=
  ⟨by decide, by decide, rfl, rfl,
    (add_sub_mismatch_iff exA exB (by decide) (by decide)).1⟩

/-- C7: for all (well-formed) `A` and `B`, `operator*(A, B)` fails with
`invalid_argument` (DimensionMismatch) if and only if `A.cols != B.rows`, whatever
`A.rows` and `B.cols` are; whenever it fails, no element of `result` has been
assigned. -/
theorem mul_mismatch_iff {T : Type} [Zero T] [Add T] [Mul T] (A B : Matrix T)
    (hA : A.WF) (hB : B.WF) :
    ((A.mul B).out = .error .invalid_argument ↔ A.cols ≠ B.rows)
      ∧ (∀ e, (A.mul B).out = .error e → (A.mul B).stores = []) := by
  by_cases h : A.cols ≠ B.rows
  · have h1 : A.mul B = Run.fail .invalid_argument := by unfold mul; rw [if_pos h]
    simp [h1, h, Run.fail]
  · have hd : A.cols = B.rows := by tauto
    rw [mul_run A B hA hB hd]
    simp [hd]

/-- Witness for C7: multiplying the 2 x 3 example by a 2 x 2 matrix fails with
`invalid_argument` before any assignment. -/
theorem mul_mismatch_iff_witness :
    exA.WF ∧ exD.WF ∧ exA.mul exD = ⟨[], .error .invalid_argument⟩
      ∧ ((exA.mul exD).out = .error .invalid_argument ↔ exA.cols ≠ exD.rows) :=
  ⟨by decide, by decide, rfl, (mul_mismatch_iff exA exD (by decide) (by decide)).1⟩

/-- C8: for all (well-formed) `A` and `B` of equal shape, `operator+(A, B)` and
`operator-(A, B)` return matrices of that same shape whose element `(i, j)` is
`A(i,j) + B(i,j)`, respectively `A(i,j) - B(i,j)`, for every `i < rows`, `j < cols`. -/
theorem add_sub_spec {T : Type} [Zero T] [Add T] [Sub T] (A B : Matrix T)
    (hA : A.WF) (hB : B.WF) (hr : A.rows = B.rows) (hc : A.cols = B.cols) :
    ∃ P M : Matrix T, (A.add B).out = .ok P ∧ (A.sub B).out = .ok M
      ∧ P.rows = A.rows ∧ P.cols = A.cols ∧ M.rows = A.rows ∧ M.cols = A.cols
      ∧ ∀ i j, i < A.rows → j < A.cols →
          ∃ a b, A.getAt i j = .ok a ∧ B.getAt i j = .ok b
            ∧ P.getAt i j = .ok (a + b) ∧ M.getAt i j = .ok (a - b) := by
  refine ⟨ofFn A.rows A.cols (fun q => A.entry q.1 q.2 + B.entry q.1 q.2),
    ofFn A.rows A.cols (fun q => A.entry q.1 q.2 - B.entry q.1 q.2),
    by rw [add_run A B hA hB hr hc], by rw [sub_run A B hA hB hr hc],
    rfl, rfl, rfl, rfl, ?_⟩
  intro i j hi hj
  refine ⟨A.entry i j, B.entry i j, getAt_eq_entry A hA hi hj,
    getAt_eq_entry B hB (by omega) (by omega), ?_, ?_⟩
  · rw [getAt_eq_entry _ (ofFn_shaped _ _ _).1 hi hj, entry_ofFn _ hi hj]
  · rw [getAt_eq_entry _ (ofFn_shaped _ _ _).1 hi hj, entry_ofFn _ hi hj]

/-- Witness for C8: `[[58,64],[139,154]]` plus and minus the 2 x 2 matrix of ones. -/
theorem add_sub_spec_witness :
    exC.WF ∧ exD.WF ∧ (exC.add exD).out = .ok ⟨[[59, 65], [140, 155]], 2, 2⟩
      ∧ (exC.sub exD).out = .ok ⟨[[57, 63], [138, 153]], 2, 2⟩
      ∧ ∃ P M : Matrix Int, (exC.add exD).out = .ok P ∧ (exC.sub exD).out = .ok M
        ∧ P.rows = exC.rows ∧ P.cols = exC.cols ∧ M.rows = exC.rows ∧ M.cols = exC.cols
        ∧ ∀ i j, i < exC.rows → j < exC.cols →
            ∃ a b, exC.getAt i j = .ok a ∧ exD.getAt i j = .ok b
              ∧ P.getAt i j = .ok (a + b) ∧ M.getAt i j = .ok (a - b) :=
  ⟨by decide, by decide, rfl, rfl, add_sub_spec exC exD (by decide) (by decide) rfl rfl⟩

/-- Counterexample to C11 as stated, on matrices of `double`.  Adding the zero-filled
matrix to `[[-0.0]]` gives `[[+0.0]]`, which is not the matrix `[[-0.0]]`; adding it to
`[[NaN]]` gives an element that does not compare equal (`==`) to the element of the
operand. -/
theorem add_zero_fp_not_identity :
    (fpNegZero.add (zero fpNegZero.rows fpNegZero.cols)).out ≠ .ok fpNegZero
      ∧ (∃ r a, (fpNan.add (zero fpNan.rows fpNan.cols)).out = .ok ⟨[[r]], 1, 1⟩
          ∧ fpNan.getAt 0 0 = .ok a ∧ Fp.eq r a = false) := by
  have h1 : (fpNegZero.add (zero fpNegZero.rows fpNegZero.cols)).out
      = .ok ⟨[[Fp.num 0]], 1, 1⟩ := rfl
  refine ⟨?_, Fp.nan, Fp.nan, rfl, rfl, rfl⟩
  rw [h1]
  intro h
  exact absurd (Except.ok.inj h) (by decide)

/-- C11, amended: for every (well-formed) matrix `A`, `A + Matrix(A.rows, A.cols)`
returns a matrix with the shape of `A` whose element `(i, j)` is `A(i,j) + T()`; it is
`A` itself (same shape, same element at every position) exactly when every element
`a` of `A` satisfies `a + T() = a`. -/
theorem add_zero_matrix_iff {T : Type} [Zero T] [Add T] (A : Matrix T) (hA : A.WF) :
    ∃ M : Matrix T, (A.add (zero A.rows A.cols)).out = .ok M
      ∧ M.rows = A.rows ∧ M.cols = A.cols
      ∧ (∀ i j, i < A.rows → j < A.cols →
          ∃ a, A.getAt i j = .ok a ∧ M.getAt i j = .ok (a + 0))
      ∧ (M = A ↔ ∀ i j a, i < A.rows → j < A.cols → A.getAt i j = .ok a → a + 0 = a) := by
  have hrun : (A.add (zero A.rows A.cols)).out
      = .ok (ofFn A.rows A.cols (fun q => A.entry q.1 q.2 + 0)) := by
    rw [add_run A _ hA (zero_shaped _ _).1 rfl rfl]
    simp only [entry_zero]
  refine ⟨ofFn A.rows A.cols (fun q => A.entry q.1 q.2 + 0), hrun, rfl, rfl, ?_, ?_⟩
  · intro i j hi hj
    refine ⟨A.entry i j, getAt_eq_entry A hA hi hj, ?_⟩
    rw [getAt_eq_entry _ (ofFn_shaped _ _ _).1 hi hj, entry_ofFn _ hi hj]
  · constructor
    · intro h i j a hi hj ha
      rw [getAt_eq_entry A hA hi hj] at ha
      have ha2 : A.entry i j = a := Except.ok.inj ha
      have h2 : (ofFn A.rows A.cols (fun q => A.entry q.1 q.2 + 0)).entry i j
          = A.entry i j := by rw [h]
      rw [entry_ofFn _ hi hj] at h2
      rw [← ha2]
      exact h2
    · intro h
      rw [ofFn_congr _ (fun q => A.entry q.1 q.2), ofFn_entry A hA]
      intro r c hr hc
      exact h r c _ hr hc (getAt_eq_entry A hA hr hc)

/-- Witness for the amended C11: on the integer matrix `[[1,2,3],[4,5,6]]` and on the
finite `double` matrix `[[1,-2],[0,7]]` the sum is the operand itself. -/
theorem add_zero_matrix_iff_witness :
    exA.WF ∧ (exA.add (zero exA.rows exA.cols)).out = .ok exA
      ∧ (fpFinite.add (zero fpFinite.rows fpFinite.cols)).out = .ok fpFinite
      ∧ ∃ M : Matrix Int, (exA.add (zero exA.rows exA.cols)).out = .ok M
        ∧ M.rows = exA.rows ∧ M.cols = exA.cols
        ∧ (∀ i j, i < exA.rows → j < exA.cols →
            ∃ a, exA.getAt i j = .ok a ∧ M.getAt i j = .ok (a + 0))
        ∧ (M = exA ↔
            ∀ i j a, i < exA.rows → j < exA.cols → exA.getAt i j = .ok a → a + 0 = a) :=
  ⟨by decide, rfl, rfl, add_zero_matrix_iff exA (by decide)⟩

/-- Counterexample to C12 as stated, on a matrix of `double`: `[[+inf]]` minus itself
is `[[NaN]]`, which is not the zero-filled 1 x 1 matrix, and its element does not
compare equal (`==`) to `T()`. -/
theorem sub_self_fp_not_zero :
    (fpInf.sub fpInf).out = .ok ⟨[[Fp.nan]], 1, 1⟩
      ∧ (fpInf.sub fpInf).out ≠ .ok (zero fpInf.rows fpInf.cols)
      ∧ Fp.eq Fp.nan 0 = false := by
  have h1 : (fpInf.sub fpInf).out = .ok ⟨[[Fp.nan]], 1, 1⟩ := rfl
  refine ⟨h1, ?_, rfl⟩
  rw [h1]
  intro h
  exact absurd (Except.ok.inj h) (by decide)

/-- C12, amended: for every (well-formed) matrix `A`, `A - A` returns a matrix with the
shape of `A` whose element `(i, j)` is `A(i,j) - A(i,j)`; it is the zero-filled matrix
`Matrix(A.rows, A.cols)` (every element `T()`) exactly when every element `a` of `A`
satisfies `a - a = T()`. -/
theorem sub_self_matrix_iff {T : Type} [Zero T] [Sub T] (A : Matrix T) (hA : A.WF) :
    ∃ M : Matrix T, (A.sub A).out = .ok M ∧ M.rows = A.rows ∧ M.cols = A.cols
      ∧ (∀ i j, i < A.rows → j < A.cols →
          ∃ a, A.getAt i j = .ok a ∧ M.getAt i j = .ok (a - a))
      ∧ (∀ i j, i < A.rows → j < A.cols →
          (zero A.rows A.cols : Matrix T).getAt i j = .ok 0)
      ∧ (M = zero A.rows A.cols
          ↔ ∀ i j a, i < A.rows → j < A.cols → A.getAt i j = .ok a → a - a = 0) := by
  have hrun : (A.sub A).out
      = .ok (ofFn A.rows A.cols (fun q => A.entry q.1 q.2 - A.entry q.1 q.2)) := by
    rw [sub_run A A hA hA rfl rfl]
  refine ⟨ofFn A.rows A.cols (fun q => A.entry q.1 q.2 - A.entry q.1 q.2), hrun, rfl, rfl,
    ?_, ?_, ?_⟩
  · intro i j hi hj
    refine ⟨A.entry i j, getAt_eq_entry A hA hi hj, ?_⟩
    rw [getAt_eq_entry _ (ofFn_shaped _ _ _).1 hi hj, entry_ofFn _ hi hj]
  · intro i j hi hj
    rw [getAt_eq_entry _ (zero_shaped _ _).1 hi hj, entry_zero]
  · constructor
    · intro h i j a hi hj ha
      rw [getAt_eq_entry A hA hi hj] at ha
      have ha2 : A.entry i j = a := Except.ok.inj ha
      have h2 : (ofFn A.rows A.cols (fun q => A.entry q.1 q.2 - A.entry q.1 q.2)).entry i j
          = (zero A.rows A.cols : Matrix T).entry i j := by rw [h]
      rw [entry_ofFn _ hi hj, entry_zero] at h2
      rw [← ha2]
      exact h2
    · intro h
      rw [zero_eq_ofFn]
      apply ofFn_congr
      intro r c hr hc
      exact h r c _ hr hc (getAt_eq_entry A hA hr hc)

/-- Witness for the amended C12: the integer matrix `[[1,2,3],[4,5,6]]` and the finite
`double` matrix `[[1,-2],[0,7]]` minus themselves are zero-filled. -/
theorem sub_self_matrix_iff_witness :
    exA.WF ∧ (exA.sub exA).out = .ok ⟨[[0, 0, 0], [0, 0, 0]], 2, 3⟩
      ∧ (fpFinite.sub fpFinite).out = .ok (zero fpFinite.rows fpFinite.cols)
      ∧ ∃ M : Matrix Int, (exA.sub exA).out = .ok M ∧ M.rows = exA.rows ∧ M.cols = exA.cols
        ∧ (∀ i j, i < exA.rows → j < exA.cols →
            ∃ a, exA.getAt i j = .ok a ∧ M.getAt i j = .ok (a - a))
        ∧ (∀ i j, i < exA.rows → j < exA.cols →
            (zero exA.rows exA.cols : Matrix Int).getAt i j = .ok 0)
        ∧ (M = zero exA.rows exA.cols
            ↔ ∀ i j a, i < exA.rows → j < exA.cols → exA.getAt i j = .ok a → a - a = 0) :=
  ⟨by decide, rfl, rfl, sub_self_matrix_iff exA (by decide)⟩

/-- C13: for all (well-formed) `A` (m x n), `B` (n x p), `C` (p x q), the four products
in `(A * B) * C` and `A * (B * C)` all return (no DimensionMismatch), and both results
have `A.rows` rows and `C.cols` columns. -/
theorem mul_assoc_shape {T : Type} [Zero T] [Add T] [Mul T] (A B C : Matrix T)
    (hA : A.WF) (hB : B.WF) (hC : C.WF) (hab : A.cols = B.rows) (hbc : B.cols = C.rows) :
    ∃ AB BC L R : Matrix T, (A.mul B).out = .ok AB ∧ (AB.mul C).out = .ok L
      ∧ (B.mul C).out = .ok BC ∧ (A.mul BC).out = .ok R
      ∧ L.rows = A.rows ∧ L.cols = C.cols ∧ R.rows = A.rows ∧ R.cols = C.cols :=
  ⟨A.mulResult B, B.mulResult C, (A.mulResult B).mulResult C, A.mulResult (B.mulResult C),
    mul_out A B hA hB hab,
    mul_out _ C (mulResult_shaped A B).1 hC hbc,
    mul_out B C hB hC hbc,
    mul_out A _ hA (mulResult_shaped B C).1 hab,
    rfl, rfl, rfl, rfl⟩

/-- Witness for C13: the chain 2 x 3, 3 x 2, 2 x 2 of the example matrices. -/
theorem mul_assoc_shape_witness :
    exA.WF ∧ exB.WF ∧ exD.WF ∧ exA.cols = exB.rows ∧ exB.cols = exD.rows
      ∧ ∃ AB BC L R : Matrix Int, (exA.mul exB).out = .ok AB ∧ (AB.mul exD).out = .ok L
        ∧ (exB.mul exD).out = .ok BC ∧ (exA.mul BC).out = .ok R
        ∧ L.rows = exA.rows ∧ L.cols = exD.cols ∧ R.rows = exA.rows ∧ R.cols = exD.cols :=
  ⟨by decide, by decide, by decide, rfl, rfl,
    mul_assoc_shape exA exB exD (by decide) (by decide) (by decide) rfl rfl⟩

/-- C14: well-formedness is an invariant of the matrix type.  Both constructors produce
a storage of `rows` lines of `cols` elements each, `rows * cols` elements in total.  On
well-formed operands, every matrix returned by `operator+`, `operator-`, both
`operator*`, `transpose`, `optTranspose` (block sizes at least one) and `frobeniusNorm`
has the same property for its own `rows` and `cols` (the last four always return), and
so has a matrix after an element write, whose `rows` and `cols` are unchanged. -/
theorem wf_invariant {T : Type} [Zero T] [Add T] [Sub T] [Mul T] (r c : Nat) (initial : T)
    (A B : Matrix T) (hA : A.WF) (hB : B.WF) (scalar : T) (sqrtT : T → T)
    (bsize_row bsize_col : Nat) (hr : 1 ≤ bsize_row) (hc : 1 ≤ bsize_col)
    (row col : Nat) (v : T) :
    ((zero r c : Matrix T).WF ∧ (zero r c : Matrix T).rows = r
        ∧ (zero r c : Matrix T).cols = c ∧ (zero r c : Matrix T).size = r * c)
      ∧ ((fill r c initial).WF ∧ (fill r c initial).rows = r
        ∧ (fill r c initial).cols = c ∧ (fill r c initial).size = r * c)
      ∧ (∀ M, (A.add B).out = .ok M → M.WF ∧ M.size = M.rows * M.cols)
      ∧ (∀ M, (A.sub B).out = .ok M → M.WF ∧ M.size = M.rows * M.cols)
      ∧ (∀ M, (A.mul B).out = .ok M → M.WF ∧ M.size = M.rows * M.cols)
      ∧ (∃ M, (A.smul scalar).out = .ok M ∧ M.WF ∧ M.size = M.rows * M.cols)
      ∧ (∃ M, A.transpose.out = .ok M ∧ M.WF ∧ M.size = M.rows * M.cols)
      ∧ (∃ M, (A.optTranspose bsize_row bsize_col).out = .ok M ∧ M.WF
          ∧ M.size = M.rows * M.cols)
      ∧ (∃ M, (A.frobeniusNorm sqrtT).out = .ok M ∧ M.WF ∧ M.size = M.rows * M.cols)
      ∧ (∀ M, (A.store row col v).out = .ok M →
          (M.WF ∧ M.size = M.rows * M.cols) ∧ M.rows = A.rows ∧ M.cols = A.cols)
      ∧ ((A.assign row col v).1.WF ∧ (A.assign row col v).1.rows = A.rows
          ∧ (A.assign row col v).1.cols = A.cols) := by
  refine ⟨⟨(zero_shaped r c).1, rfl, rfl, size_of_wf _ (zero_shaped r c).1⟩,
    ⟨(fill_shaped r c initial).1, rfl, rfl, size_of_wf _ (fill_shaped r c initial).1⟩,
    fun M h => wf_and_size M (add_out_wf A B M hA hB h),
    fun M h => wf_and_size M (sub_out_wf A B M hA hB h),
    fun M h => wf_and_size M (mul_out_wf A B M hA hB h),
    ⟨_, by rw [smul_run A hA scalar], wf_and_size _ (ofFn_shaped _ _ _).1⟩,
    ⟨_, transpose_out A hA, wf_and_size _ (ofFn_shaped _ _ _).1⟩,
    ⟨_, optTranspose_out A hA bsize_row bsize_col hr hc, wf_and_size _ (ofFn_shaped _ _ _).1⟩,
    ⟨_, by rw [frobeniusNorm_run sqrtT A hA], wf_and_size _ (ofFn_shaped _ _ _).1⟩,
    ?_, assign_wf A hA row col v⟩
  intro M h
  have h1 := store_out_wf A M hA row col v h
  exact ⟨wf_and_size M h1.1, h1.2⟩

/-- Witness for C14 on the example matrices: sizes 2 x 3 and 3 x 2, blocks 2 x 2, a
write at `(1, 2)`. -/
theorem wf_invariant_witness :
    exA.WF ∧ exB.WF ∧ (zero 2 3 : Matrix Int).size = 2 * 3
      ∧ (∀ M, (exA.mul exB).out = .ok M → M.WF ∧ M.size = M.rows * M.cols)
      ∧ (∃ M, (exA.optTranspose 2 2).out = .ok M ∧ M.WF ∧ M.size = M.rows * M.cols)
      ∧ (exA.assign 1 2 7).1.WF :=
  have h := wf_invariant 2 3 (5 : Int) exA exB (by decide) (by decide) 3 intSqrt 2 2
    (by decide) (by decide) 1 2 7
  ⟨by decide, by decide, h.1.2.2.2, h.2.2.2.2.1, h.2.2.2.2.2.2.2.1, h.2.2.2.2.2.2.2.2.2.2.1⟩

/-- Counterexample to C15 as stated, on the `int` matrix `[[46341]]`: the exact sum of
squares is 2147488281, the product `46341 * 46341` leaves the range of `int`, and the
single element of the returned matrix is `INT_MIN`, which is not the truncated square
root of that sum. -/
theorem frobeniusNorm_int32_overflow :
    exactSumSquares i32Big = 2147488281
      ∧ (i32Big.frobeniusNorm I32.sqrt).out = .ok ⟨[[⟨-2147483648⟩]], 1, 1⟩
      ∧ ¬ ∃ r : I32, (i32Big.frobeniusNorm I32.sqrt).out = .ok ⟨[[r]], 1, 1⟩
          ∧ 0 ≤ r.val ∧ r.val * r.val ≤ exactSumSquares i32Big
          ∧ exactSumSquares i32Big < (r.val + 1) * (r.val + 1) := by
  have h1 : (i32Big.frobeniusNorm I32.sqrt).out = .ok ⟨[[⟨-2147483648⟩]], 1, 1⟩ := rfl
  refine ⟨rfl, h1, ?_⟩
  rintro ⟨r, hr, h0, _, _⟩
  rw [h1] at hr
  have h2 := Except.ok.inj hr
  simp only [Matrix.mk.injEq, List.cons.injEq, and_true] at h2
  rw [← h2] at h0
  exact absurd h0 (by decide)

/-- C15, amended: for every (well-formed) matrix `A` of `int` whose exact sum of squares
`S` of the elements is at most `INT_MAX`, `frobeniusNorm(A)` returns a 1 x 1 matrix whose
single element `r` is the truncated square root of `S`, the sum of the
`A(i,j) * A(i,j)` accumulated from zero in row-major order: `r >= 0` and
`r * r <= S < (r + 1) * (r + 1)`. -/
theorem frobeniusNorm_int32 (A : Matrix I32) (hA : A.WF)
    (hb : exactSumSquares A ≤ 2147483647) :
    ∃ r : I32, (A.frobeniusNorm I32.sqrt).out = .ok ⟨[[r]], 1, 1⟩
      ∧ (⟨[[r]], 1, 1⟩ : Matrix I32).getAt 0 0 = .ok r
      ∧ 0 ≤ r.val
      ∧ r.val * r.val ≤ exactSumSquares A
      ∧ exactSumSquares A < (r.val + 1) * (r.val + 1)
      ∧ ∀ i j, i < A.rows → j < A.cols → A.getAt i j = .ok (A.entry i j) := by
  have hval := rowMajorSum_i32_val A hb
  have hnn := exactSumSquares_nonneg A
  have hsq := I32.sqrt_val (rowMajorSum A.rows A.cols (fun i j => A.entry i j * A.entry i j))
    (by rw [hval]; exact hnn)
  rw [hval] at hsq
  have hs := intSqrt_spec _ hnn
  refine ⟨I32.sqrt (rowMajorSum A.rows A.cols (fun i j => A.entry i j * A.entry i j)),
    ?_, rfl, ?_, ?_, ?_, fun i j hi hj => getAt_eq_entry A hA hi hj⟩
  · rw [frobeniusNorm_run I32.sqrt A hA]
    rfl
  · rw [hsq]; exact hs.1
  · rw [hsq]; exact hs.2.1
  · rw [hsq]; exact hs.2.2

/-- Witness for the amended C15: for the 3 x 3 matrix filled with 1..9 the sum of
squares is 285 and the single element of the norm is 16. -/
theorem frobeniusNorm_int32_witness :
    i32M.WF ∧ exactSumSquares i32M = 285 ∧ exactSumSquares i32M ≤ 2147483647
      ∧ (i32M.frobeniusNorm I32.sqrt).out = .ok ⟨[[⟨16⟩]], 1, 1⟩ := by
  have hsum : exactSumSquares i32M = 285 := rfl
  have hb : exactSumSquares i32M ≤ 2147483647 := by rw [hsum]; decide
  obtain ⟨r, h1, _, h3, h4, h5, _⟩ := frobeniusNorm_int32 i32M (by decide) hb
  rw [hsum] at h4 h5
  have hr : r.val = 16 := by nlinarith
  have hr2 : r = ⟨16⟩ := by
    cases r
    simp only at hr
    rw [hr]
  subst hr2
  exact ⟨by decide, hsum, hb, h1⟩

/-- C16: for every (well-formed) matrix `A`, every `(row, col)` and every value `v`: if
`(row, col)` is in range, the write `A(row, col) = v` succeeds, leaves `rows` and `cols`
unchanged, makes a read of `(row, col)` return `v` and leaves the read of every other
position as it was; if it is out of range, the write fails with `out_of_range`, no
assignment is performed and the matrix is unchanged. -/
theorem write_frame {T : Type} (A : Matrix T) (hA : A.WF) (row col : Nat) (v : T) :
    (row < A.rows → col < A.cols →
        ∃ M : Matrix T, A.assign row col v = (M, none)
          ∧ A.store row col v = ⟨[(row, col)], .ok M⟩
          ∧ M.rows = A.rows ∧ M.cols = A.cols ∧ M.getAt row col = .ok v
          ∧ ∀ i j, (i, j) ≠ (row, col) → M.getAt i j = A.getAt i j)
      ∧ ((row ≥ A.rows ∨ col ≥ A.cols) →
          A.assign row col v = (A, some .out_of_range)
            ∧ A.store row col v = ⟨[], .error .out_of_range⟩) := by
  constructor
  · intro hr hc
    refine ⟨A.poke (row, col) v, by simp [assign, refAt_eq_of_wf A hA hr hc],
      store_eq_of_wf A hA hr hc v, rfl, rfl, ?_, ?_⟩
    · rw [getAt_poke A hA hr hc, if_pos rfl]
    · intro i j hij
      rw [getAt_poke A hA hr hc, if_neg hij]
  · intro h
    have href : A.refAt row col = .error .out_of_range := by simp [refAt, h]
    exact ⟨by simp [assign, href], by simp [store, href, Run.fail]⟩

/-- Witness for C16: writing 7 at `(1, 2)` of `[[1,2,3],[4,5,6]]` gives
`[[1,2,3],[4,5,7]]`; writing at `(2, 0)` fails and leaves the matrix as it was. -/
theorem write_frame_witness :
    exA.WF ∧ exA.assign 1 2 7 = (⟨[[1, 2, 3], [4, 5, 7]], 2, 3⟩, none)
      ∧ exA.assign 2 0 7 = (exA, some .out_of_range)
      ∧ (∃ M : Matrix Int, exA.assign 1 2 7 = (M, none)
          ∧ exA.store 1 2 7 = ⟨[(1, 2)], .ok M⟩
          ∧ M.rows = exA.rows ∧ M.cols = exA.cols ∧ M.getAt 1 2 = .ok 7
          ∧ ∀ i j, (i, j) ≠ (1, 2) → M.getAt i j = exA.getAt i j) :=
  ⟨by decide, rfl, rfl, (write_frame exA (by decide) 1 2 7).1 (by decide) (by decide)⟩

/-- C17: for every (well-formed) matrix `A` and all block sizes `bsize_row >= 1`,
`bsize_col >= 1`, the run of `optTranspose` returns: it ends neither in `out_of_range`
nor in a read outside the storage.  Every assignment `result(c, r) = data[r][c]` it
performs has `c < A.cols` and `r < A.rows`, so the bounds check of `result(c, r)` on
the `A.cols` x `A.rows` result passes and the read `data[r][c]` is inside the storage
of `A`. -/
theorem optTranspose_in_range {T : Type} [Zero T] (A : Matrix T) (hA : A.WF)
    (bsize_row bsize_col : Nat) (hr : 1 ≤ bsize_row) (hc : 1 ≤ bsize_col) :
    (∃ M : Matrix T, (A.optTranspose bsize_row bsize_col).out = .ok M)
      ∧ (A.optTranspose bsize_row bsize_col).out ≠ .error .out_of_range
      ∧ (A.optTranspose bsize_row bsize_col).out ≠ .error .unchecked_index
      ∧ ∀ c r, (c, r) ∈ (A.optTranspose bsize_row bsize_col).stores →
          r < A.rows ∧ c < A.cols ∧ (∃ v, A.raw r c = .ok v)
            ∧ (zero A.cols A.rows : Matrix T).refAt c r = .ok (c, r) := by
  have hout := optTranspose_out A hA bsize_row bsize_col hr hc
  refine ⟨⟨_, hout⟩, by rw [hout]; simp, by rw [hout]; simp, ?_⟩
  intro c r hcr
  rw [optTranspose_run A hA bsize_row bsize_col hr hc] at hcr
  have h := (mem_optStores hr hc c r).mp hcr
  exact ⟨h.1, h.2, ⟨A.entry r c, raw_eq_entry A hA h.1 h.2⟩,
    refAt_eq_of_wf _ (zero_shaped _ _).1 h.2 h.1⟩

/-- Witness for C17: the 2 x 3 example with blocks 2 x 2. -/
theorem optTranspose_in_range_witness :
    exA.WF ∧ (exA.optTranspose 2 2).out ≠ .error .out_of_range
      ∧ (exA.optTranspose 2 2).out ≠ .error .unchecked_index
      ∧ ∀ c r, (c, r) ∈ (exA.optTranspose 2 2).stores →
          r < exA.rows ∧ c < exA.cols ∧ (∃ v, exA.raw r c = .ok v)
            ∧ (zero exA.cols exA.rows : Matrix Int).refAt c r = .ok (c, r) :=
  have h := optTranspose_in_range exA (by decide) 2 2 (by decide) (by decide)
  ⟨by decide, h.2.1, h.2.2.1, h.2.2.2⟩

/-- C18: for all (well-formed) matrices of exact integers `A` (m x n), `B` (n x p),
`C` (p x q), the products `(A * B) * C` and `A * (B * C)` return the same matrix: equal
in shape and in every element. -/
theorem mul_assoc_int (A B C : Matrix Int) (hA : A.WF) (hB : B.WF) (hC : C.WF)
    (hab : A.cols = B.rows) (hbc : B.cols = C.rows) :
    ∃ AB BC M : Matrix Int, (A.mul B).out = .ok AB ∧ (B.mul C).out = .ok BC
      ∧ (AB.mul C).out = .ok M ∧ (A.mul BC).out = .ok M :=
  ⟨A.mulResult B, B.mulResult C, (A.mulResult B).mulResult C,
    mul_out A B hA hB hab, mul_out B C hB hC hbc,
    mul_out _ C (mulResult_shaped A B).1 hC hbc, by
      rw [mulResult_assoc A B C hab]
      exact mul_out A _ hA (mulResult_shaped B C).1 hab⟩

/-- Witness for C18: the chain 2 x 3, 3 x 2, 2 x 2 of the example matrices, both
products being `[[122,122],[293,293]]`. -/
theorem mul_assoc_int_witness :
    exA.WF ∧ exB.WF ∧ exD.WF ∧ exA.cols = exB.rows ∧ exB.cols = exD.rows
      ∧ (exC.mul exD).out = .ok ⟨[[122, 122], [293, 293]], 2, 2⟩
      ∧ ∃ AB BC M : Matrix Int, (exA.mul exB).out = .ok AB ∧ (exB.mul exD).out = .ok BC
        ∧ (AB.mul exD).out = .ok M ∧ (exA.mul BC).out = .ok M :=
  ⟨by decide, by decide, by decide, rfl, rfl, rfl,
    mul_assoc_int exA exB exD (by decide) (by decide) (by decide) rfl rfl⟩

/-- C19: for all (well-formed) matrices of exact integers `A` (m x n) and `B` (n x p),
`transpose(A * B)` and `transpose(B) * transpose(A)` return the same matrix, and so do
`optTranspose(A * B)` and `optTranspose(B) * optTranspose(A)` for any block sizes of
at least one (chosen per call). -/
theorem transpose_mul_int (A B : Matrix Int) (hA : A.WF) (hB : B.WF)
    (hab : A.cols = B.rows) (r1 c1 r2 c2 r3 c3 : Nat)
    (h1 : 1 ≤ r1 ∧ 1 ≤ c1) (h2 : 1 ≤ r2 ∧ 1 ≤ c2) (h3 : 1 ≤ r3 ∧ 1 ≤ c3) :
    ∃ AB At Bt M : Matrix Int, (A.mul B).out = .ok AB
      ∧ A.transpose.out = .ok At ∧ B.transpose.out = .ok Bt
      ∧ AB.transpose.out = .ok M ∧ (Bt.mul At).out = .ok M
      ∧ (A.optTranspose r3 c3).out = .ok At ∧ (B.optTranspose r2 c2).out = .ok Bt
      ∧ (AB.optTranspose r1 c1).out = .ok M
      ∧ M.rows = B.cols ∧ M.cols = A.rows := by
  refine ⟨A.mulResult B, ofFn A.cols A.rows (fun q => A.entry q.2 q.1),
    ofFn B.cols B.rows (fun q => B.entry q.2 q.1),
    ofFn (A.mulResult B).cols (A.mulResult B).rows (fun q => (A.mulResult B).entry q.2 q.1),
    mul_out A B hA hB hab, transpose_out A hA, transpose_out B hB,
    transpose_out _ (mulResult_shaped A B).1, ?_,
    optTranspose_out A hA r3 c3 h3.1 h3.2, optTranspose_out B hB r2 c2 h2.1 h2.2,
    optTranspose_out _ (mulResult_shaped A B).1 r1 c1 h1.1 h1.2, rfl, rfl⟩
  rw [transposed_mulResult A B hab]
  exact mul_out _ _ (transposed_shaped B).1 (transposed_shaped A).1 hab.symm

/-- Witness for C19: the 2 x 3 and 3 x 2 examples, with blocks 2 x 2, 1 x 3 and 5 x 7;
the common result is `[[58,139],[64,154]]`. -/
theorem transpose_mul_int_witness :
    exA.WF ∧ exB.WF ∧ exA.cols = exB.rows
      ∧ exC.transpose.out = .ok ⟨[[58, 139], [64, 154]], 2, 2⟩
      ∧ ∃ AB At Bt M : Matrix Int, (exA.mul exB).out = .ok AB
        ∧ exA.transpose.out = .ok At ∧ exB.transpose.out = .ok Bt
        ∧ AB.transpose.out = .ok M ∧ (Bt.mul At).out = .ok M
        ∧ (exA.optTranspose 5 7).out = .ok At ∧ (exB.optTranspose 1 3).out = .ok Bt
        ∧ (AB.optTranspose 2 2).out = .ok M
        ∧ M.rows = exB.cols ∧ M.cols = exA.rows :=
  ⟨by decide, by decide, rfl, rfl,
    transpose_mul_int exA exB (by decide) (by decide) rfl 2 2 1 3 5 7
      ⟨by decide, by decide⟩ ⟨by decide, by decide⟩ ⟨by decide, by decide⟩⟩

/-- C20: for all (well-formed) matrices `A` and `B` of exact integers of the same shape,
`A - B` and its `frobeniusNorm` return, and the single element of the norm is 0 if and
only if `A(i,j) = B(i,j)` at every position, that is, if and only if `A` and `B` are
the same matrix. -/
theorem norm_diff_zero_iff (A B : Matrix Int) (hA : A.WF) (hB : B.WF)
    (hr : A.rows = B.rows) (hc : A.cols = B.cols) :
    ∃ (D : Matrix Int) (r : Int), (A.sub B).out = .ok D
      ∧ (D.frobeniusNorm intSqrt).out = .ok ⟨[[r]], 1, 1⟩
      ∧ (r = 0 ↔ ∀ i j, i < A.rows → j < A.cols → A.getAt i j = B.getAt i j)
      ∧ (r = 0 ↔ A = B) := by
  have hD := ofFn_shaped A.rows A.cols (fun q => A.entry q.1 q.2 - B.entry q.1 q.2)
  have hzero : intSqrt (rowMajorSum A.rows A.cols (fun i j =>
        (ofFn A.rows A.cols (fun q => A.entry q.1 q.2 - B.entry q.1 q.2)).entry i j
          * (ofFn A.rows A.cols (fun q => A.entry q.1 q.2 - B.entry q.1 q.2)).entry i j)) = 0
      ↔ ∀ i j, i < A.rows → j < A.cols → A.entry i j = B.entry i j := by
    rw [intSqrt_eq_zero_iff _ (rowMajorSum_squares_nonneg _ _ _),
      rowMajorSum_squares_eq_zero_iff]
    constructor
    · intro h i j hi hj
      have := h i j hi hj
      rw [entry_ofFn _ hi hj] at this
      simp only at this
      omega
    · intro h i j hi hj
      rw [entry_ofFn _ hi hj]
      simp only
      rw [h i j hi hj]
      omega
  refine ⟨ofFn A.rows A.cols (fun q => A.entry q.1 q.2 - B.entry q.1 q.2),
    intSqrt (rowMajorSum A.rows A.cols (fun i j =>
      (ofFn A.rows A.cols (fun q => A.entry q.1 q.2 - B.entry q.1 q.2)).entry i j
        * (ofFn A.rows A.cols (fun q => A.entry q.1 q.2 - B.entry q.1 q.2)).entry i j)),
    by rw [sub_run A B hA hB hr hc], ?_, ?_, ?_⟩
  · rw [frobeniusNorm_run intSqrt _ hD.1]
    rfl
  · rw [hzero]
    constructor
    · intro h i j hi hj
      rw [getAt_eq_entry A hA hi hj, getAt_eq_entry B hB (by omega) (by omega), h i j hi hj]
    · intro h i j hi hj
      have := h i j hi hj
      rw [getAt_eq_entry A hA hi hj, getAt_eq_entry B hB (by omega) (by omega)] at this
      exact Except.ok.inj this
  · rw [hzero]
    constructor
    · intro h
      apply eq_of_cells A B ⟨hA, rfl, rfl⟩ ⟨hB, hr.symm, hc.symm⟩
      intro i j hi hj
      rw [cell_eq_entry A hA hi hj, cell_eq_entry B hB (by omega) (by omega), h i j hi hj]
    · intro h i j _ _
      rw [h]

/-- Witness for C20: the check of `main.cpp`, where the two transposes of the 3 x 3
matrix agree and the norm of their difference is 0; and a pair of different matrices,
for which it is not. -/
theorem norm_diff_zero_iff_witness :
    exM.WF ∧ (exM.transpose.out = (exM.optTranspose 2 2).out)
      ∧ exM.transpose.out = .ok ⟨[[1, 4, 7], [2, 5, 8], [3, 6, 9]], 3, 3⟩
      ∧ ((⟨[[1, 4, 7], [2, 5, 8], [3, 6, 9]], 3, 3⟩ : Matrix Int).sub
            ⟨[[1, 4, 7], [2, 5, 8], [3, 6, 9]], 3, 3⟩).out
          = .ok ⟨[[0, 0, 0], [0, 0, 0], [0, 0, 0]], 3, 3⟩
      ∧ ((⟨[[0, 0, 0], [0, 0, 0], [0, 0, 0]], 3, 3⟩ : Matrix Int).frobeniusNorm intSqrt).out
          = .ok ⟨[[0]], 1, 1⟩
      ∧ (∃ (D : Matrix Int) (r : Int), (exC.sub exD).out = .ok D
          ∧ (D.frobeniusNorm intSqrt).out = .ok ⟨[[r]], 1, 1⟩
          ∧ (r = 0 ↔ ∀ i j, i < exC.rows → j < exC.cols → exC.getAt i j = exD.getAt i j)
          ∧ (r = 0 ↔ exC = exD)) :=
  ⟨by decide, rfl, rfl, rfl, by
      show Except.ok (⟨[[intSqrt 0]], 1, 1⟩ : Matrix Int) = _
      rfl,
    norm_diff_zero_iff exC exD (by decide) (by decide) rfl rfl⟩

end KBlas
